import Mathlib

/-!
Verification of the librarian facets engine
(`src/librarian/data/facets/archive.py`).

The Python module is shallowly embedded as executable Lean definitions:
paths are `String`s manipulated at the character-list level (mirroring
Python's `str.split('/')` / `'/'.join` semantics), the relational store
and the cache are explicit state records, and fallible operations return
`Option`.  Bitmasks are `Nat` with `&&&`/`|||`.
-/

namespace Librarian

/-! ## Character-level path primitives

Python's `str.split('/')` and `'/'.join(...)`, on `List Char`. -/

/-- `cs.split('/')` : split a character list on `'/'`; always nonempty,
adjacent separators produce empty components (Python `str.split(sep)`). -/
def splitOnSlash : List Char → List (List Char)
  | [] => [[]]
  | c :: rest =>
    if c = '/' then [] :: splitOnSlash rest
    else
      match splitOnSlash rest with
      | [] => [[c]]
      | h :: t => (c :: h) :: t

/-- `'/'.join(parts)` : interleave components with `'/'`. -/
def joinSlash : List (List Char) → List Char
  | [] => []
  | [x] => x
  | x :: xs => x ++ '/' :: joinSlash xs

/-! ## `os.path.normpath` and `os.path.dirname` (POSIX flavour)

Faithful character-level transcriptions of CPython's `posixpath.normpath`
and `posixpath.dirname`. -/

/-- CPython `posixpath.normpath`. -/
def normpath (p : String) : String :=
  let cs := p.toList
  if cs = [] then "." else
  let initialSlashes : Nat :=
    if cs.take 1 = ['/'] then
      if cs.take 2 = ['/', '/'] ∧ cs.take 3 ≠ ['/', '/', '/'] then 2 else 1
    else 0
  let comps := splitOnSlash cs
  let newComps := comps.foldl (fun acc comp =>
    if comp = [] ∨ comp = ['.'] then acc
    else if comp ≠ ['.', '.'] ∨ (initialSlashes = 0 ∧ acc = []) ∨
            (acc.getLast? = some ['.', '.']) then acc ++ [comp]
    else if acc ≠ [] then acc.dropLast
    else acc) []
  let res := List.replicate initialSlashes '/' ++ joinSlash newComps
  if res = [] then "." else String.mk res

/-- CPython `posixpath.dirname`: everything up to the last `'/'`, with
trailing slashes stripped unless the head is all slashes. -/
def dirname (p : String) : String :=
  let cs := p.toList
  match cs.reverse.findIdx? (fun c => c = '/') with
  | none => ""
  | some j =>
    let head := cs.take (cs.length - j)
    let head :=
      if head.any (fun c => c ≠ '/') then
        (head.reverse.dropWhile (fun c => c = '/')).reverse
      else head
    String.mk head

/-! ## `ancestors_of` -/

/-- `archive.ancestors_of`: all of `path`'s ancestors, root first,
including `path` itself (as a list; the Python generator is finite). -/
def ancestors_of (path : String) : List String :=
  let normalized := normpath path
  if normalized = "/" then [normalized]
  else if normalized = "." then [""]
  else
    let parts := splitOnSlash normalized.toList
    let pre := if parts.headD [] ≠ [] then [""] else []
    pre ++ (List.range parts.length).map (fun i =>
      let j := joinSlash (parts.take (i + 1))
      if j = [] then "/" else String.mk j)

/-! ## External collaborators' constants

The `processors` and `contenttypes` modules are imported by `archive.py`
but are not part of the sources; only their constants are needed here. -/

/-- Modelled from the spec: the `processors` module (not under `src/`)
exports the node-type constants; the spec defines `type` as the enum
{FILE, DIRECTORY}.  Only distinctness of the two values matters. -/
def FILE_TYPE : Nat := 0

/-- Modelled from the spec: DIRECTORY member of the {FILE, DIRECTORY}
node-type enum from the missing `processors` module. -/
def DIRECTORY_TYPE : Nat := 1

/-- Modelled from the spec: the `contenttypes` module (not under `src/`)
maps each content-type tag to a single bit; GENERIC is the default tag
applied to every node.  Bit assignment is arbitrary but fixed. -/
def GENERIC_BITMASK : Nat := 1

/-- Modelled from the spec: bit for the TEXT content-type tag. -/
def TEXT_BITMASK : Nat := 2

/-! ## Store and cache state

`fs` table rows, the relational store, and the key/value cache.  The
store counts executed write statements (`Replace`/`Update` executions)
so that "issues no storage write" claims are statable. -/

/-- One row of the `fs` table (`FS_COLUMNS` plus the serial `id`). -/
structure Entry where
  id : Nat
  parent_id : Nat
  path : String
  type : Nat
  content_types : Nat
deriving Repr, DecidableEq

/-- One row of the `meta` table (`META_COLUMNS`). -/
structure MetaRow where
  fs_id : Nat
  language : String
  key : String
  value : String
deriving Repr, DecidableEq

/-- The relational store: the `fs` and `meta` table rows, the next serial
id, and a count of executed write statements. -/
structure Db where
  rows : List Entry
  meta : List MetaRow
  nextId : Nat
  writes : Nat
deriving Repr, DecidableEq

/-- `SELECT * FROM fs WHERE path = p` (first matching row). -/
def Db.lookup (db : Db) (p : String) : Option Entry :=
  db.rows.find? (fun r => r.path == p)

/-- Store invariant: at most one row per path (the `path` column is the
`fs` table's unique natural key). -/
def Db.wf (db : Db) : Prop := (db.rows.map Entry.path).Nodup

/-- `Replace` on `fs` keyed on `path`: upsert — update the existing row's
mutable columns in place, or insert a fresh row with a new serial id. -/
def Db.replaceFs (db : Db) (p : String) (parentId ty cts : Nat) : Db :=
  match db.rows.find? (fun r => r.path == p) with
  | some _ =>
    { db with
      rows := db.rows.map (fun r =>
        if r.path == p then
          { r with parent_id := parentId, type := ty, content_types := cts }
        else r),
      writes := db.writes + 1 }
  | none =>
    { db with
      rows := db.rows ++
        [{ id := db.nextId, parent_id := parentId, path := p, type := ty,
           content_types := cts }],
      nextId := db.nextId + 1,
      writes := db.writes + 1 }

/-- `UPDATE fs SET content_types = content_types | cts WHERE path = p`. -/
def Db.updateOrCts (db : Db) (p : String) (cts : Nat) : Db :=
  { db with
    rows := db.rows.map (fun r =>
      if r.path == p then
        { r with content_types := r.content_types ||| cts }
      else r),
    writes := db.writes + 1 }

/-- Stable insertion step for modelling SQL `ORDER BY`. -/
def insertLe {α : Type} (le : α → α → Bool) (x : α) : List α → List α
  | [] => [x]
  | y :: ys => if le x y then x :: y :: ys else y :: insertLe le x ys

/-- Stable insertion sort for modelling SQL `ORDER BY`. -/
def sortLe {α : Type} (le : α → α → Bool) (l : List α) : List α :=
  l.foldr (insertLe le) []

/-- Lexicographic character-code order on character lists (the text
collation used by the store's `ORDER BY path`). -/
def charListLe : List Char → List Char → Bool
  | [], _ => true
  | _ :: _, [] => false
  | a :: as, b :: bs =>
    if a = b then charListLe as bs
    else decide (a.val.toNat < b.val.toNat)

/-- Lexicographic order on paths. -/
def pathLe (a b : String) : Bool := charListLe a.toList b.toList

/-- `SELECT * FROM fs WHERE path IN ps ORDER BY length(path)`
(used by `FSWriter._get_chain`). -/
def Db.selectInByLength (db : Db) (ps : List String) : List Entry :=
  sortLe (fun a b => a.path.length ≤ b.path.length)
    (db.rows.filter (fun r => ps.contains r.path))

/-- The key/value cache: an association list with unique keys; `set`
replaces in place or appends.  Expiry timeouts are not modelled (they
never influence the claims). -/
abbrev Cache : Type := List (String × Entry)

/-- `cache.get(k)`. -/
def cacheGet (c : Cache) (k : String) : Option Entry :=
  (List.find? (fun pr => pr.1 == k) c).map Prod.snd

/-- `cache.set(k, e, timeout)`. -/
def cacheSet (c : Cache) (k : String) (e : Entry) : Cache :=
  if (List.find? (fun pr => pr.1 == k) c).isSome then
    List.map (fun pr => if pr.1 == k then (pr.1, e) else pr) c
  else c ++ [(k, e)]

/-- Combined mutable state seen by `FSWriter`: store plus cache. -/
structure WState where
  db : Db
  cache : Cache
deriving DecidableEq

/-- Cache coherence: every cached pair is keyed `fs_` + its entry's path
and its entry is exactly the store's row for that path.  The module
maintains this itself (every cache `set` mirrors a store row); it is the
hypothesis under which the writer claims are stated. -/
def coherent (s : WState) : Prop :=
  ∀ pr ∈ s.cache, pr.1 = "fs_" ++ pr.2.path ∧ s.db.lookup pr.2.path = some pr.2

/-- Invariant carried through all writer proofs. -/
def Inv (s : WState) : Prop := s.db.wf ∧ coherent s

instance : DecidablePred coherent := fun s => by
  unfold coherent; infer_instance

instance : DecidablePred Inv := fun s => by
  unfold Inv Db.wf; infer_instance

/-! ## `FSWriter` -/

namespace FSWriter

/-- `FSWriter.DEFAULT_CONTENT_TYPE = ContentTypes.to_bitmask(GENERIC)`. -/
def DEFAULT_CONTENT_TYPE : Nat := GENERIC_BITMASK

/-- Constructor data: `path`, `type`, `content_types`
(`parent_path` is derived via `os.path.dirname`). -/
structure WData where
  path : String
  type : Nat
  content_types : Nat
deriving Repr, DecidableEq

/-- `FSWriter._key`. -/
def key (p : String) : String := "fs_" ++ p

/-- The cache half of `FSWriter._get_chain`: walk the ancestor chain,
collecting cached entries, aborting at the first cache miss; returns the
found prefix and the missing suffix. -/
def cacheWalk (c : Cache) : List String → List Entry × List String
  | [] => ([], [])
  | p :: rest =>
    match cacheGet c (key p) with
    | none => ([], p :: rest)
    | some e =>
      let (anc, miss) := cacheWalk c rest
      (e :: anc, miss)

/-- `FSWriter._get_chain`: cache walk, then a batched store fetch of the
cache-missed suffix ordered by ascending path length; each fetched row is
cached, appended to the found ancestors and removed from `missing`. -/
def getChain (path : String) (s : WState) :
    List Entry × List String × WState :=
  let (ancestors, missing) := cacheWalk s.cache (ancestors_of path)
  if missing.isEmpty then (ancestors, missing, s)
  else
    let fetched := s.db.selectInByLength missing
    let (ancestors, missing, cache) := fetched.foldl
      (fun acc e =>
        (acc.1 ++ [e], acc.2.1.erase e.path, cacheSet acc.2.2 (key e.path) e))
      (ancestors, missing, s.cache)
    (ancestors, missing, { s with cache := cache })

/-- `FSWriter._create`: upsert the row, re-fetch it, cache it, return it.
The re-fetch of a just-upserted row cannot fail; `none` is unreachable. -/
def create (p : String) (parentId ty cts : Nat) (s : WState) :
    Option (Entry × WState) :=
  let db := s.db.replaceFs p parentId ty cts
  match db.lookup p with
  | none => none
  | some e => some (e, { db := db, cache := cacheSet s.cache (key p) e })

/-- `FSWriter._update`: consult the cache; if the cached bitmask already
contains the wanted bits, skip the write and return the cached entry
unchanged; otherwise issue the OR-update, patch or fetch the entry,
re-cache it and return it.  `none` models the crash when the row exists
neither in cache nor in the store (`dict(None)` raises). -/
def update1 (p : String) (cts : Nat) (s : WState) :
    Option (Entry × WState) :=
  let ck := key p
  match cacheGet s.cache ck with
  | some e =>
    if e.content_types &&& cts == cts then some (e, s)
    else
      let db := s.db.updateOrCts p cts
      let e' := { e with content_types := e.content_types ||| cts }
      some (e', { db := db, cache := cacheSet s.cache ck e' })
  | none =>
    let db := s.db.updateOrCts p cts
    match db.lookup p with
    | none => none
    | some e => some (e, { db := db, cache := cacheSet s.cache ck e })

/-- The creation loop of `FSWriter.write`: for each still-missing path in
ancestor-to-descendant order, create it with the default GENERIC bitmask
— additionally OR-ing in the target's contributed bits only for the
target path itself or for its direct parent when the target is a FILE —
with `parent_id` taken from the previous step's resulting entry
(`DEFAULT_ROOT`, id 0, when there is none). -/
def createLoop (wd : WData) : List String → Option Entry → WState →
    Option (Option Entry × WState)
  | [], last, s => some (last, s)
  | missing :: rest, last, s =>
    let cts0 := DEFAULT_CONTENT_TYPE
    let cts :=
      if missing = wd.path ∨
         (missing = dirname wd.path ∧ wd.type = FILE_TYPE) then
        cts0 ||| wd.content_types
      else cts0
    match create missing ((last.map Entry.id).getD 0) wd.type cts s with
    | none => none
    | some (e, s') => createLoop wd rest (some e) s'

/-- `FSWriter.write`: resolve the ancestor chain, create every missing
entry, OR-update the pre-existing parent's bits when the target is a
FILE, OR-update the pre-existing target's bits, and return the target's
record.  `none` models the unreachable `DEFAULT_ROOT` return and the
`_update` crash on a row absent from both cache and store. -/
def write (wd : WData) (s : WState) : Option (Entry × WState) :=
  let (found, missingPaths, s) := getChain wd.path s
  match createLoop wd missingPaths found.getLast? s with
  | none => none
  | some (last, s) =>
    let step2 : Option (Option Entry × WState) :=
      if dirname wd.path ∉ missingPaths ∧ wd.type = FILE_TYPE then
        match update1 (dirname wd.path) wd.content_types s with
        | none => none
        | some (_, s') => some (last, s')
      else some (last, s)
    match step2 with
    | none => none
    | some (last, s) =>
      if wd.path ∉ missingPaths then
        match update1 wd.path wd.content_types s with
        | none => none
        | some (e, s') => some (e, s')
      else
        match last with
        | none => none
        | some e => some (e, s)

/-- `FSWriter.update`: the unsafe bare `_update` on the target path. -/
def update (wd : WData) (s : WState) : Option (Entry × WState) :=
  update1 wd.path wd.content_types s

end FSWriter

/-! ## `Archive._reconstruct_meta`

The joined query rows and their reshaping into per-path metadata views. -/

/-- One flat row of the `fs`/`meta` join: always carries the FS Node
columns; the Meta Entry columns are `none` (SQL NULL) for a node with no
metadata (outer join). -/
structure Row where
  id : Nat
  parent_id : Nat
  path : String
  type : Nat
  content_types : Nat
  language : Option String
  key : Option String
  value : Option String
deriving Repr, DecidableEq, Inhabited

/-- The nested `{language: {key: value}}` dict, as insertion-ordered
association lists (`language` may be SQL NULL, i.e. `none`). -/
abbrev MetaMap : Type := List (Option String × List (String × Option String))

/-- `data[language][key] = value` on the inner dict. -/
def kvPut (l : List (String × Option String)) (k : String)
    (v : Option String) : List (String × Option String) :=
  if l.any (fun kv => kv.1 == k) then
    l.map (fun kv => if kv.1 == k then (k, v) else kv)
  else l ++ [(k, v)]

/-- `data.setdefault(language, {}); data[language][key] = value`. -/
def mmPut (m : MetaMap) (lang : Option String) (k : String)
    (v : Option String) : MetaMap :=
  if m.any (fun e => e.1 == lang) then
    m.map (fun e => if e.1 == lang then (e.1, kvPut e.2 k v) else e)
  else m ++ [(lang, kvPut [] k v)]

/-- Python truthiness of `row['key']`: neither SQL NULL nor `""`. -/
def rowKeyTruthy (r : Row) : Bool :=
  match r.key with
  | none => false
  | some k => k ≠ ""

/-- The inner loop of `_reconstruct_meta` over one group: accumulate
`language`/`key`/`value` of the rows whose `key` is truthy. -/
def buildMeta (g : List Row) : MetaMap :=
  g.foldl (fun acc r =>
    match r.key with
    | none => acc
    | some k => if k = "" then acc else mmPut acc r.language k r.value) []

/-- `itertools.groupby(rows, key=path)`: maximal runs of consecutive rows
sharing the same `path`. -/
def groupRuns : List Row → List (List Row)
  | [] => []
  | r :: rest =>
    match groupRuns rest with
    | [] => [[r]]
    | [] :: gs => [r] :: gs
    | (h :: g) :: gs =>
      if r.path = h.path then (r :: h :: g) :: gs
      else [r] :: (h :: g) :: gs

/-- `Archive.MetaWrapper` as reconstructed: the FS Node columns plus the
nested metadata dict. -/
structure MetaView where
  path : String
  id : Nat
  parent_id : Nat
  type : Nat
  content_types : Nat
  meta : MetaMap
deriving Repr, DecidableEq, Inhabited

/-- One iteration of `_reconstruct_meta`'s outer loop: the metadata dict
from the truthy-key rows, the `path` from the group key (its first row),
and the FS Node columns from the group's final row (the Python `row`
variable leaking out of the inner loop).  Groups produced by `groupRuns`
are never empty; `default` is unreachable. -/
def viewOfGroup (g : List Row) : MetaView :=
  match g.head?, g.getLast? with
  | some firstRow, some lastRow =>
    { path := firstRow.path, id := lastRow.id, parent_id := lastRow.parent_id,
      type := lastRow.type, content_types := lastRow.content_types,
      meta := buildMeta g }
  | _, _ => default

/-- `Archive._reconstruct_meta`: one `MetaWrapper` per consecutive run of
rows sharing a `path`, in input order (the input is never re-sorted). -/
def reconstructMeta (rows : List Row) : List MetaView :=
  (groupRuns rows).map viewOfGroup

/-! ## `Archive.get` (read path, `content_type=None`)

The RIGHT OUTER join of `meta` with `fs` filtered to the requested paths
and ordered by `fs.path`, reconstruction, and the degrade-and-backfill
policy for missing paths. -/

/-- `SELECT .. FROM meta RIGHT OUTER JOIN fs ON fs.id = meta.fs_id WHERE
fs.path IN paths ORDER BY fs.path`: each matching `fs` row contributes
its meta rows, or a single NULL-extended row when it has none. -/
def selectJoinedRows (db : Db) (paths : List String) : List Row :=
  let fsSel := sortLe (fun a b => pathLe a.path b.path)
    (db.rows.filter (fun f => paths.contains f.path))
  (fsSel.map (fun f =>
    let ms := db.meta.filter (fun m => m.fs_id == f.id)
    if ms.isEmpty then
      [{ id := f.id, parent_id := f.parent_id, path := f.path,
         type := f.type, content_types := f.content_types,
         language := none, key := none, value := none }]
    else ms.map (fun m =>
      { id := f.id, parent_id := f.parent_id, path := f.path,
        type := f.type, content_types := f.content_types,
        language := some m.language, key := some m.key,
        value := some m.value }))).flatten

/-- A value of the mapping returned by `Archive.get`: either a view
reconstructed from the store, or the result of `Archive.analyze` on a
path that had no store record (the analyzers are external processors,
out of scope; only the keying matters to the claims).  `quick` marks the
partial/placeholder analysis. -/
inductive GetVal where
  | stored (v : MetaView)
  | analyzed (quick : Bool) (path : String)
deriving Repr, DecidableEq

/-- `dict.update` on an insertion-ordered association list. -/
def dictUpdate (d d' : List (String × GetVal)) : List (String × GetVal) :=
  d'.foldl (fun acc kv =>
    if acc.any (fun kv' => kv'.1 == kv.1) then
      acc.map (fun kv' => if kv'.1 == kv.1 then kv else kv')
    else acc ++ [kv]) d

/-- Concrete join rows for the reconstruction witness: two rows for
path `"a"` (one keyed, one with NULL key) and one NULL-key row for
`"b"`, pre-sorted by path with path-functional FS columns. -/
def rowsW : List Row :=
  [⟨1, 0, "a", 0, 1, some "en", some "title", some "A"⟩,
   ⟨1, 0, "a", 0, 1, none, none, none⟩,
   ⟨2, 0, "b", 1, 1, none, none, none⟩]

namespace Archive

/-- `Archive.get(paths, content_type=None, partial=quick,
ignore_missing=ignoreMissing)`.  Returns the path-keyed mapping and the
list of path sets scheduled for background full analysis (the
`analyze(missing, callback=save)` dispatch).  `missing` is a Python
`set`; it is modelled as the deduplicated not-found sublist of `paths`.
The blocking `analyze`+`save_many` of the non-quick branch writes rows
whose content is produced by the external processors; that store effect
is outside this model, which captures the returned mapping.  The
`@batched` chunking (999 per chunk, dict-union aggregation) is the
identity on the key set and is not modelled. -/
def get (db : Db) (paths : List String) (quick ignoreMissing : Bool) :
    List (String × GetVal) × List (List String) :=
  let rows := selectJoinedRows db paths
  let data := (reconstructMeta rows).map (fun v => (v.path, GetVal.stored v))
  if ignoreMissing then (data, [])
  else
    let missing :=
      (paths.filter (fun p => ! data.any (fun kv => kv.1 == p))).dedup
    if missing.isEmpty then (data, [])
    else if quick then
      (dictUpdate data (missing.map (fun p => (p, GetVal.analyzed true p))),
       [missing])
    else
      (dictUpdate data (missing.map (fun p => (p, GetVal.analyzed false p))),
       [])

end Archive

/-! ## `Archive.scan` (synchronous mode)

The recursive directory traversal.  `analyze` of the file batch is the
external processors' work; a yielded batch is identified by the relative
paths of the files it analyzes (its dict is keyed exactly by them). -/

/-- The external file-system lister (FSAL): `list_dir` returns `none` on
failure, else the relative paths of child directories and files. -/
structure Fsal where
  listDir : String → Option (List String × List String)

/-- One yielded result set of `Archive.scan`: the file paths whose
analysis dict is yielded for one directory level. -/
abbrev Batch : Type := List String

/-- `Archive._scan` in synchronous (iterator) mode, as the list of
yielded batches.  A failed listing logs a warning and raises
`StopIteration`, which under the generator protocol ends the generation:
no batch, no recursion, no error to the caller.  The Python recursion is
bounded by the finite directory tree; `fuel` bounds it here and yields
nothing when exhausted. -/
def scanAux (fs : Fsal) (maxdepth : Option Nat) :
    Nat → String → Nat → List Batch
  | 0, _, _ => []
  | fuel + 1, path, depth =>
    match fs.listDir (if path = "" then "." else path) with
    | none => []
    | some (dirs, files) =>
      files :: (if maxdepth = some depth then []
        else (dirs.map (fun d => scanAux fs maxdepth fuel d (depth + 1))).flatten)

/-- `Archive.scan(path, partial, callback=None, maxdepth)`: returns the
generator, i.e. the list of batches with `depth = 0`; `path=None` is the
root `ROOT_PATH = ''`. -/
def Archive.scan (fs : Fsal) (maxdepth : Option Nat) (fuel : Nat)
    (path : String) : List Batch :=
  scanAux fs maxdepth fuel path 0

/-- A concrete lister for the scan witness: the root holds one file and
three subdirectories, of which `"bad"` fails to list. -/
def fsalW : Fsal :=
  ⟨fun p =>
    if p = "." then some (["good", "bad", "good2"], ["root.txt"])
    else if p = "good" then some ([], ["g.txt"])
    else if p = "good2" then some ([], ["h.txt"])
    else none⟩

/-! ## Concrete states for witnesses and counterexamples -/

/-- Empty store (serial ids start at 1) with empty cache. -/
def s0 : WState := ⟨⟨[], [], 1, 0⟩, []⟩

/-- Saving a relative FILE path with the TEXT bit. -/
def wdRel : FSWriter.WData := ⟨"a/b/c.txt", FILE_TYPE, TEXT_BITMASK⟩

/-- Saving the absolute FILE path of the C3 scenario with the TEXT bit. -/
def wdAbs : FSWriter.WData := ⟨"/a/b/c.txt", FILE_TYPE, TEXT_BITMASK⟩

/-! ## `ancestors_of` structure (C8) -/

/-- `a` is an initial segment of `b`. -/
def startOf (a b : List Char) : Prop := ∃ u, a ++ u = b

/-! ## Lemmas and claim theorems -/

/-- `splitOnSlash` never returns the empty list. -/
theorem splitOnSlash_ne_nil (cs : List Char) : splitOnSlash cs ≠ [] := by
  cases cs with
  | nil => simp [splitOnSlash]
  | cons c rest =>
    simp only [splitOnSlash]
    split
    · simp
    · split <;> simp_all

/-- Joining the split of a character list gives the list back
(Python: `'/'.join(s.split('/')) == s`). -/
theorem joinSlash_splitOnSlash (cs : List Char) :
    joinSlash (splitOnSlash cs) = cs := by
  induction cs with
  | nil => rfl
  | cons c rest ih =>
    simp only [splitOnSlash]
    split
    · rename_i hc
      cases hsp : splitOnSlash rest with
      | nil => exact absurd hsp (splitOnSlash_ne_nil rest)
      | cons h t =>
        rw [hsp] at ih
        show joinSlash ([] :: h :: t) = c :: rest
        simp only [joinSlash, List.nil_append]
        rw [ih, hc]
    · cases hsp : splitOnSlash rest with
      | nil => exact absurd hsp (splitOnSlash_ne_nil rest)
      | cons h t =>
        rw [hsp] at ih
        cases t with
        | nil => simp only [joinSlash] at ih ⊢; rw [ih]
        | cons y ys =>
          simp only [joinSlash] at ih ⊢
          rw [List.cons_append, ih]

/-! ## Helper lemmas: bitmasks, finds, sorting, cache -/

/-- Bits once contained stay contained under further OR. -/
theorem and_or_superset {a b c : Nat} (h : a &&& b = b) :
    (a ||| c) &&& b = b := by
  apply Nat.eq_of_testBit_eq
  intro i
  have := congrArg (Nat.testBit · i) h
  simp only [Nat.testBit_and, Nat.testBit_or] at this ⊢
  cases hb : b.testBit i <;> cases ha : a.testBit i <;> simp_all

/-- OR-ing in bits makes them contained. -/
theorem or_and_self {a b : Nat} : (a ||| b) &&& b = b := by
  apply Nat.eq_of_testBit_eq
  intro i
  simp only [Nat.testBit_and, Nat.testBit_or]
  cases hb : b.testBit i <;> simp

/-- `find?` on a path-keyed predicate commutes with a path-preserving map. -/
theorem find?_map_pathPres (f : Entry → Entry)
    (hf : ∀ r, (f r).path = r.path) (l : List Entry) (p : String) :
    (l.map f).find? (fun r => r.path == p) =
      (l.find? (fun r => r.path == p)).map f := by
  induction l with
  | nil => rfl
  | cons r rest ih =>
    simp only [List.map_cons, List.find?]
    rw [hf r]
    cases h : (r.path == p) <;> simp [h, ih]

/-- Membership is invariant under `insertLe`. -/
theorem mem_insertLe {α : Type} (le : α → α → Bool) (x y : α)
    (l : List α) : y ∈ insertLe le x l ↔ y = x ∨ y ∈ l := by
  induction l with
  | nil => simp [insertLe]
  | cons z zs ih =>
    simp only [insertLe]
    split
    · simp [ih]
    · simp [ih]
      tauto

/-- Membership is invariant under `sortLe`. -/
theorem mem_sortLe {α : Type} (le : α → α → Bool) (x : α)
    (l : List α) : x ∈ sortLe le l ↔ x ∈ l := by
  induction l with
  | nil => simp [sortLe]
  | cons z zs ih =>
    simp only [sortLe, List.foldr] at ih ⊢
    rw [mem_insertLe, ih]
    simp [eq_comm]

/-- `find?` on a key-keyed predicate commutes with a key-preserving map. -/
theorem find?_map_keyPres (f : String × Entry → String × Entry)
    (hf : ∀ pr, (f pr).1 = pr.1) (c : Cache) (k : String) :
    (c.map f).find? (fun pr => pr.1 == k) =
      (c.find? (fun pr => pr.1 == k)).map f := by
  induction c with
  | nil => rfl
  | cons pr rest ih =>
    simp only [List.map_cons, List.find?]
    rw [hf pr]
    cases h : (pr.1 == k) <;> simp [h, ih]

/-- Reading back the key just set. -/
theorem cacheGet_cacheSet_self (c : Cache) (k : String) (e : Entry) :
    cacheGet (cacheSet c k e) k = some e := by
  cases hv : List.find? (fun pr => pr.1 == k) c with
  | none => simp [cacheGet, cacheSet, hv, List.find?_append, List.find?]
  | some pr0 =>
    have hk : (pr0.1 == k) = true := by
      have := List.find?_some hv
      simpa using this
    simp only [cacheGet, cacheSet, hv, Option.isSome_some, if_true]
    rw [find?_map_keyPres _ (fun pr => by split <;> rfl), hv]
    simp [eq_of_beq hk]

/-- Setting one key leaves the others unchanged. -/
theorem cacheGet_cacheSet_ne (c : Cache) (k k' : String) (e : Entry)
    (h : k' ≠ k) : cacheGet (cacheSet c k e) k' = cacheGet c k' := by
  have hkk : (k == k') = false := by
    simp only [beq_eq_false_iff_ne]
    exact fun hh => h hh.symm
  cases hv : List.find? (fun pr => pr.1 == k) c with
  | none =>
    simp [cacheGet, cacheSet, hv, List.find?_append, List.find?, hkk]
  | some pr0 =>
    simp only [cacheGet, cacheSet, hv, Option.isSome_some, if_true]
    rw [find?_map_keyPres _ (fun pr => by split <;> rfl)]
    cases hw : List.find? (fun pr => pr.1 == k') c with
    | none => rfl
    | some pr1 =>
      have hk1 : (pr1.1 == k') = true := by
        have := List.find?_some hw
        simpa using this
      have hne : (pr1.1 == k) = false := by
        simp only [beq_eq_false_iff_ne]
        intro hh
        exact h ((eq_of_beq hk1) ▸ hh ▸ rfl)
      simp [hne]
      rw [if_neg (by simpa using hne)]

/-- Every pair of the cache after a `set` is the new pair or an old pair
with a different key. -/
theorem mem_cacheSet (c : Cache) (k : String) (e : Entry) (pr : String × Entry)
    (hmem : pr ∈ cacheSet c k e) :
    pr = (k, e) ∨ (pr ∈ c ∧ pr.1 ≠ k) ∨ (pr ∈ c ∧ pr.1 = k ∧ pr.2 = e) := by
  unfold cacheSet at hmem
  split at hmem
  · obtain ⟨pr0, hpr0, heq⟩ := List.mem_map.mp hmem
    by_cases hk : pr0.1 = k
    · left
      rw [← heq]
      simp [hk]
    · right; left
      constructor
      · rw [← heq]; simp [show (pr0.1 == k) = false from beq_eq_false_iff_ne.mpr hk]
        exact hpr0
      · rw [← heq]; simp [show (pr0.1 == k) = false from beq_eq_false_iff_ne.mpr hk]
        exact hk
  · rcases List.mem_append.mp hmem with h | h
    · right; left
      refine ⟨h, ?_⟩
      intro hk
      rename_i hnone
      have : (List.find? (fun pr => pr.1 == k) c).isSome := by
        rw [List.find?_isSome]
        exact ⟨pr, h, by simp [hk]⟩
      simp [this] at hnone
    · left; simpa using h

/-- `find?` by path hits a member row when paths are duplicate-free. -/
theorem find?_self_of_nodup (l : List Entry)
    (hl : (l.map Entry.path).Nodup) (e : Entry) (he : e ∈ l) :
    l.find? (fun r => r.path == e.path) = some e := by
  induction l with
  | nil => simp at he
  | cons r rest ih =>
    simp only [List.map_cons, List.nodup_cons] at hl
    rcases List.mem_cons.mp he with rfl | hmem
    · simp [List.find?]
    · have hne : (r.path == e.path) = false := by
        simp only [beq_eq_false_iff_ne]
        intro hh
        exact hl.1 (hh ▸ List.mem_map_of_mem Entry.path hmem)
      simp only [List.find?, hne]
      exact ih hl.2 hmem

/-- In a well-formed store, each row is found at its own path. -/
theorem wf_lookup_self {db : Db} (hwf : db.wf) {e : Entry}
    (he : e ∈ db.rows) : db.lookup e.path = some e :=
  find?_self_of_nodup db.rows hwf e he

/-- A successful `lookup` returns a row with the looked-up path. -/
theorem lookup_path {db : Db} {p : String} {e : Entry}
    (h : db.lookup p = some e) : e.path = p := by
  have := List.find?_some h
  simpa using this

/-- A successful `lookup` returns a member row. -/
theorem lookup_mem {db : Db} {p : String} {e : Entry}
    (h : db.lookup p = some e) : e ∈ db.rows :=
  List.mem_of_find?_eq_some h

/-- Cache keys determine paths. -/
theorem key_inj {a b : String} (h : "fs_" ++ a = "fs_" ++ b) : a = b := by
  have h2 := congrArg String.data h
  simp only [String.data_append] at h2
  have h3 := List.append_cancel_left h2
  cases a; cases b; exact congrArg String.mk h3

/-! ## Store-operation lemmas -/

/-- After an upsert, the upserted path holds the written columns. -/
theorem lookup_replaceFs_self (db : Db) (p : String) (a b c : Nat) :
    ∃ e, (db.replaceFs p a b c).lookup p = some e ∧ e.path = p ∧
      e.parent_id = a ∧ e.type = b ∧ e.content_types = c := by
  unfold Db.replaceFs Db.lookup
  cases hv : db.rows.find? (fun r => r.path == p) with
  | some r =>
    have hr : (r.path == p) = true := by
      have := List.find?_some hv
      simpa using this
    simp only
    rw [find?_map_pathPres _ (fun r => by split <;> rfl), hv]
    refine ⟨_, rfl, ?_⟩
    simp [eq_of_beq hr]
  | none =>
    simp only [List.find?_append, hv, Option.none_or]
    refine ⟨{ id := db.nextId, parent_id := a, path := p, type := b,
              content_types := c }, ?_, rfl, rfl, rfl, rfl⟩
    simp [List.find?]

/-- An upsert leaves all other paths untouched. -/
theorem lookup_replaceFs_ne (db : Db) (p : String) (a b c : Nat)
    (q : String) (hq : q ≠ p) :
    (db.replaceFs p a b c).lookup q = db.lookup q := by
  unfold Db.replaceFs Db.lookup
  cases hv : db.rows.find? (fun r => r.path == p) with
  | some r =>
    simp only
    rw [find?_map_pathPres _ (fun r => by split <;> rfl)]
    cases hw : db.rows.find? (fun r => r.path == q) with
    | none => rfl
    | some r' =>
      have hr' : (r'.path == q) = true := by
        have := List.find?_some hw
        simpa using this
      have : (r'.path == p) = false := by
        simp only [beq_eq_false_iff_ne]
        intro hh
        exact hq ((eq_of_beq hr') ▸ hh ▸ rfl)
      simp only [Option.map_some']
      rw [if_neg (by simp [this])]
  | none =>
    simp only [List.find?_append]
    have : List.find?  (fun r => r.path == q)
        [({ id := db.nextId, parent_id := a, path := p, type := b,
            content_types := c } : Entry)] = none := by
      have : (p == q) = false := beq_eq_false_iff_ne.mpr (fun hh => hq hh.symm)
      simp [List.find?, this]
    rw [this, Option.or_none]

/-- OR-update at the updated path: the row's bitmask is widened. -/
theorem lookup_updateOrCts_self (db : Db) (p : String) (c : Nat) :
    (db.updateOrCts p c).lookup p = (db.lookup p).map
      (fun r : Entry => { r with content_types := r.content_types ||| c }) := by
  unfold Db.updateOrCts Db.lookup
  simp only
  rw [find?_map_pathPres _ (fun r => by split <;> rfl)]
  cases hw : db.rows.find? (fun r => r.path == p) with
  | none => rfl
  | some r =>
    have hr : (r.path == p) = true := by
      have := List.find?_some hw
      simpa using this
    simp only [Option.map_some']
    rw [if_pos hr]

/-- OR-update leaves all other paths untouched. -/
theorem lookup_updateOrCts_ne (db : Db) (p : String) (c : Nat)
    (q : String) (hq : q ≠ p) :
    (db.updateOrCts p c).lookup q = db.lookup q := by
  unfold Db.updateOrCts Db.lookup
  simp only
  rw [find?_map_pathPres _ (fun r => by split <;> rfl)]
  cases hw : db.rows.find? (fun r => r.path == q) with
  | none => rfl
  | some r =>
    have hr : (r.path == q) = true := by
      have := List.find?_some hw
      simpa using this
    have : (r.path == p) = false := by
      simp only [beq_eq_false_iff_ne]
      intro hh
      exact hq ((eq_of_beq hr) ▸ hh ▸ rfl)
    simp only [Option.map_some']
    rw [if_neg (by simp [this])]

/-- Row presence is monotone under upserts. -/
theorem isSome_replaceFs {db : Db} {q : String} (p : String) (a b c : Nat)
    (h : (db.lookup q).isSome) : ((db.replaceFs p a b c).lookup q).isSome := by
  by_cases hq : q = p
  · subst hq
    obtain ⟨e, he, -⟩ := lookup_replaceFs_self db q a b c
    simp [he]
  · rw [lookup_replaceFs_ne db p a b c q hq]
    exact h

/-- Row presence is monotone under OR-updates. -/
theorem isSome_updateOrCts {db : Db} {q : String} (p : String) (c : Nat)
    (h : (db.lookup q).isSome) : ((db.updateOrCts p c).lookup q).isSome := by
  by_cases hq : q = p
  · subst hq
    rw [lookup_updateOrCts_self]
    simpa using h
  · rw [lookup_updateOrCts_ne db p c q hq]
    exact h

/-- Contained bits stay contained under any OR-update. -/
theorem cts_superset_updateOrCts {db : Db} {q : String} {r : Entry} {B : Nat}
    (p : String) (c : Nat) (h : db.lookup q = some r)
    (hB : r.content_types &&& B = B) :
    ∃ r', (db.updateOrCts p c).lookup q = some r' ∧
      r'.content_types &&& B = B := by
  by_cases hq : q = p
  · subst hq
    rw [lookup_updateOrCts_self, h]
    exact ⟨_, rfl, and_or_superset hB⟩
  · rw [lookup_updateOrCts_ne db p c q hq]
    exact ⟨r, h, hB⟩

/-- Upserts preserve well-formedness of the store. -/
theorem wf_replaceFs {db : Db} (hwf : db.wf) (p : String) (a b c : Nat) :
    (db.replaceFs p a b c).wf := by
  unfold Db.replaceFs
  cases hv : db.rows.find? (fun r => r.path == p) with
  | some r =>
    unfold Db.wf at hwf ⊢
    simp only
    rw [List.map_map]
    have : (Entry.path ∘ fun r : Entry =>
        if r.path == p then
          { r with parent_id := a, type := b, content_types := c }
        else r) = Entry.path := by
      funext r
      dsimp only [Function.comp]
      split <;> rfl
    rw [this]
    exact hwf
  | none =>
    unfold Db.wf at hwf ⊢
    simp only [List.map_append, List.map_cons, List.map_nil]
    rw [List.nodup_append]
    refine ⟨hwf, List.nodup_singleton _, ?_⟩
    intro x hx hx2
    simp only [List.mem_singleton] at hx2
    subst hx2
    obtain ⟨r, hr, hrp⟩ := List.mem_map.mp hx
    rw [List.find?_eq_none] at hv
    exact hv r hr (by simp [hrp])

/-- OR-updates preserve well-formedness of the store. -/
theorem wf_updateOrCts {db : Db} (hwf : db.wf) (p : String) (c : Nat) :
    (db.updateOrCts p c).wf := by
  unfold Db.updateOrCts Db.wf at *
  simp only
  rw [List.map_map]
  have : (Entry.path ∘ fun r : Entry =>
      if r.path == p then { r with content_types := r.content_types ||| c }
      else r) = Entry.path := by
    funext r
    dsimp only [Function.comp]
    split <;> rfl
  rw [this]
  exact hwf

/-! ## Coherence lemmas -/

/-- A coherent cache hit is the store's row at that path. -/
theorem coherent_cacheGet {s : WState} {p : String} {e : Entry}
    (hc : coherent s) (h : cacheGet s.cache (FSWriter.key p) = some e) :
    e.path = p ∧ s.db.lookup p = some e := by
  unfold cacheGet at h
  cases hv : List.find? (fun pr => pr.1 == FSWriter.key p) s.cache with
  | none => simp [hv] at h
  | some pr =>
    simp only [hv, Option.map_some', Option.some_inj] at h
    have hpr := List.mem_of_find?_eq_some hv
    have hk : (pr.1 == FSWriter.key p) = true := by
      have := List.find?_some hv
      simpa using this
    obtain ⟨h1, h2⟩ := hc pr hpr
    have : pr.2.path = p := key_inj (h1 ▸ eq_of_beq hk)
    subst h
    exact ⟨this, this ▸ h2⟩

/-- Re-caching a current store row after a change that only affected the
cached path keeps the cache coherent. -/
theorem coherent_update {s : WState} {db' : Db} {p : String} {e : Entry}
    (hc : coherent s) (he : db'.lookup p = some e)
    (hother : ∀ q, q ≠ p → db'.lookup q = s.db.lookup q) :
    coherent ⟨db', cacheSet s.cache (FSWriter.key p) e⟩ := by
  have hep : e.path = p := lookup_path he
  intro pr hpr
  rcases mem_cacheSet _ _ _ _ hpr with rfl | ⟨hold, hne⟩ | ⟨hold, h1, h2⟩
  · constructor
    · show FSWriter.key p = "fs_" ++ e.path
      rw [hep]; rfl
    · show db'.lookup e.path = some e
      rw [hep]; exact he
  · obtain ⟨h1, h2⟩ := hc pr hold
    refine ⟨h1, ?_⟩
    have hqp : pr.2.path ≠ p := by
      intro hh
      exact hne (h1.trans (by rw [hh]; rfl))
    rw [hother _ hqp]
    exact h2
  · refine ⟨?_, ?_⟩
    · rw [h1, h2, hep]; rfl
    · rw [h2, hep]; exact h2 ▸ he

/-! ## `FSWriter` operation specifications -/

/-- `_create` always succeeds and yields the upserted row, cached, with
all other paths untouched. -/
theorem create_post {s : WState} {p : String} {a b c : Nat} {e : Entry}
    {s' : WState} (hInv : Inv s)
    (h : FSWriter.create p a b c s = some (e, s')) :
    Inv s' ∧ e.path = p ∧ e.type = b ∧ e.content_types = c ∧
      s'.db.lookup p = some e ∧
      (∀ q, q ≠ p → s'.db.lookup q = s.db.lookup q) ∧
      s'.db = s.db.replaceFs p a b c := by
  obtain ⟨e0, he0, hp, hpar, hty, hcts⟩ := lookup_replaceFs_self s.db p a b c
  unfold FSWriter.create at h
  simp only [he0, Option.some_inj, Prod.mk.injEq] at h
  obtain ⟨rfl, rfl⟩ := h
  have hother : ∀ q, q ≠ p →
      (s.db.replaceFs p a b c).lookup q = s.db.lookup q :=
    fun q hq => lookup_replaceFs_ne s.db p a b c q hq
  refine ⟨⟨wf_replaceFs hInv.1 p a b c, ?_⟩, hp, hty, hcts, he0, hother, rfl⟩
  exact coherent_update hInv.2 he0 hother

/-- `_create` never returns `none`. -/
theorem create_some (p : String) (a b c : Nat) (s : WState) :
    ∃ e s', FSWriter.create p a b c s = some (e, s') := by
  obtain ⟨e0, he0, -⟩ := lookup_replaceFs_self s.db p a b c
  unfold FSWriter.create
  simp only [he0]
  exact ⟨_, _, rfl⟩

/-- `_update` on success returns the store's row at the path, whose bits
now contain the requested ones; other paths are untouched and the store
either was not written at all or received exactly one OR-update. -/
theorem update1_post {s : WState} {p : String} {c : Nat} {e : Entry}
    {s' : WState} (hInv : Inv s)
    (h : FSWriter.update1 p c s = some (e, s')) :
    Inv s' ∧ e.path = p ∧ s'.db.lookup p = some e ∧
      e.content_types &&& c = c ∧
      (∀ q, q ≠ p → s'.db.lookup q = s.db.lookup q) ∧
      (s'.db = s.db ∨ s'.db = s.db.updateOrCts p c) := by
  unfold FSWriter.update1 at h
  cases hcg : cacheGet s.cache (FSWriter.key p) with
  | some e0 =>
    obtain ⟨he0p, he0l⟩ := coherent_cacheGet hInv.2 hcg
    simp only [hcg] at h
    by_cases hin : e0.content_types &&& c = c
    · rw [if_pos (by simpa using hin)] at h
      simp only [Option.some_inj, Prod.mk.injEq] at h
      obtain ⟨rfl, rfl⟩ := h
      exact ⟨hInv, he0p, he0l, hin, fun q _ => rfl, Or.inl rfl⟩
    · rw [if_neg (by simpa using hin)] at h
      simp only [Option.some_inj, Prod.mk.injEq] at h
      obtain ⟨rfl, rfl⟩ := h
      have hlook : (s.db.updateOrCts p c).lookup p =
          some { e0 with content_types := e0.content_types ||| c } := by
        rw [lookup_updateOrCts_self, he0l]
        rfl
      have hother : ∀ q, q ≠ p →
          (s.db.updateOrCts p c).lookup q = s.db.lookup q :=
        fun q hq => lookup_updateOrCts_ne s.db p c q hq
      refine ⟨⟨wf_updateOrCts hInv.1 p c, ?_⟩, he0p, hlook, or_and_self,
        hother, Or.inr rfl⟩
      exact coherent_update hInv.2 hlook hother
  | none =>
    simp only [hcg] at h
    cases hlk : (s.db.updateOrCts p c).lookup p with
    | none =>
      simp only [hlk] at h
      exact Option.noConfusion h
    | some e1 =>
      simp only [hlk, Option.some_inj, Prod.mk.injEq] at h
      obtain ⟨rfl, rfl⟩ := h
      have he1p : e1.path = p := lookup_path hlk
      have hother : ∀ q, q ≠ p →
          (s.db.updateOrCts p c).lookup q = s.db.lookup q :=
        fun q hq => lookup_updateOrCts_ne s.db p c q hq
      have hcts : e1.content_types &&& c = c := by
        rw [lookup_updateOrCts_self] at hlk
        cases hv : s.db.lookup p with
        | none => rw [hv] at hlk; simp at hlk
        | some r =>
          rw [hv] at hlk
          simp only [Option.map_some', Option.some_inj] at hlk
          rw [← hlk]
          exact or_and_self
      refine ⟨⟨wf_updateOrCts hInv.1 p c, ?_⟩, he1p, hlk, hcts, hother,
        Or.inr rfl⟩
      exact coherent_update hInv.2 hlk hother

/-! ## `_get_chain` specification -/

/-- The cache-missed suffix is a sublist of the chain. -/
theorem cacheWalk_snd_sublist (c : Cache) (ps : List String) :
    List.Sublist (FSWriter.cacheWalk c ps).2 ps := by
  induction ps with
  | nil => simp [FSWriter.cacheWalk]
  | cons p rest ih =>
    simp only [FSWriter.cacheWalk]
    cases cacheGet c (FSWriter.key p) with
    | none => exact List.Sublist.refl _
    | some e => exact ih.cons p

/-- Every chain element is cache-hit or ends up in the missed suffix. -/
theorem cacheWalk_covers (c : Cache) (ps : List String) :
    ∀ q ∈ ps, (cacheGet c (FSWriter.key q)).isSome ∨
      q ∈ (FSWriter.cacheWalk c ps).2 := by
  induction ps with
  | nil => simp
  | cons p rest ih =>
    intro q hq
    simp only [FSWriter.cacheWalk]
    cases hcg : cacheGet c (FSWriter.key p) with
    | none => exact Or.inr hq
    | some e =>
      rcases List.mem_cons.mp hq with rfl | hmem
      · exact Or.inl (by simp [hcg])
      · exact ih q hmem

/-- The missing component of the fetch fold is a fold of erases. -/
theorem fold_trip_snd1 (es : List Entry) (a : List Entry)
    (m : List String) (cc : Cache) :
    (es.foldl (fun acc e =>
        (acc.1 ++ [e], acc.2.1.erase e.path,
         cacheSet acc.2.2 (FSWriter.key e.path) e)) (a, m, cc)).2.1 =
      es.foldl (fun m e => m.erase e.path) m := by
  induction es generalizing a m cc with
  | nil => rfl
  | cons e rest ih => exact ih _ _ _

/-- The cache component of the fetch fold is a fold of `set`s. -/
theorem fold_trip_snd2 (es : List Entry) (a : List Entry)
    (m : List String) (cc : Cache) :
    (es.foldl (fun acc e =>
        (acc.1 ++ [e], acc.2.1.erase e.path,
         cacheSet acc.2.2 (FSWriter.key e.path) e)) (a, m, cc)).2.2 =
      es.foldl (fun c e => cacheSet c (FSWriter.key e.path) e) cc := by
  induction es generalizing a m cc with
  | nil => rfl
  | cons e rest ih => exact ih _ _ _

/-- Erasing elements yields a sublist. -/
theorem erase_fold_sublist (es : List Entry) (m : List String) :
    List.Sublist (es.foldl (fun m e => m.erase e.path) m) m := by
  induction es generalizing m with
  | nil => exact List.Sublist.refl _
  | cons e rest ih =>
    exact (ih (m.erase e.path)).trans (List.erase_sublist e.path m)

/-- An element not erased survives the erase fold. -/
theorem erase_fold_mem (es : List Entry) (m : List String) (q : String)
    (hq : q ∈ m) :
    q ∈ es.foldl (fun m e => m.erase e.path) m ∨ ∃ e ∈ es, e.path = q := by
  induction es generalizing m with
  | nil => exact Or.inl hq
  | cons e rest ih =>
    by_cases hqe : q = e.path
    · exact Or.inr ⟨e, List.mem_cons_self e rest, hqe.symm⟩
    · rcases ih (m.erase e.path) ((List.mem_erase_of_ne hqe).mpr hq) with
        h | ⟨e', he', hp⟩
      · exact Or.inl h
      · exact Or.inr ⟨e', List.mem_cons_of_mem e he', hp⟩

/-- Caching a batch of current store rows keeps the cache coherent. -/
theorem coherent_fold {db : Db} (hwf : db.wf) (es : List Entry)
    (he : ∀ e ∈ es, e ∈ db.rows) (cc : Cache)
    (hc : coherent ⟨db, cc⟩) :
    coherent ⟨db, es.foldl (fun c e => cacheSet c (FSWriter.key e.path) e) cc⟩ := by
  induction es generalizing cc with
  | nil => exact hc
  | cons e rest ih =>
    refine ih (fun x hx => he x (List.mem_cons_of_mem e hx)) _ ?_
    exact coherent_update hc
      (wf_lookup_self hwf (he e (List.mem_cons_self e rest)))
      (fun q _ => rfl)

/-- `_get_chain` does not touch the store, keeps the invariant, returns
a missing list that is a sub-chain, and accounts for every chain
element: already stored, or listed as missing. -/
theorem getChain_spec {s : WState} {p : String} {found : List Entry}
    {missing : List String} {s' : WState} (hInv : Inv s)
    (h : FSWriter.getChain p s = (found, missing, s')) :
    Inv s' ∧ s'.db = s.db ∧ List.Sublist missing (ancestors_of p) ∧
      ∀ q ∈ ancestors_of p, (s.db.lookup q).isSome ∨ q ∈ missing := by
  obtain ⟨anc0, miss0, hcw⟩ :
      ∃ a m, FSWriter.cacheWalk s.cache (ancestors_of p) = (a, m) :=
    ⟨_, _, rfl⟩
  have hmiss0_sub : List.Sublist miss0 (ancestors_of p) := by
    have := cacheWalk_snd_sublist s.cache (ancestors_of p)
    rwa [hcw] at this
  have hcover0 : ∀ q ∈ ancestors_of p,
      (cacheGet s.cache (FSWriter.key q)).isSome ∨ q ∈ miss0 := by
    intro q hq
    have := cacheWalk_covers s.cache (ancestors_of p) q hq
    rwa [hcw] at this
  have hhit : ∀ q, (cacheGet s.cache (FSWriter.key q)).isSome →
      (s.db.lookup q).isSome := by
    intro q hs
    cases hcg : cacheGet s.cache (FSWriter.key q) with
    | none => rw [hcg] at hs; simp at hs
    | some e =>
      obtain ⟨-, hl⟩ := coherent_cacheGet hInv.2 hcg
      simp [hl]
  unfold FSWriter.getChain at h
  simp only [hcw] at h
  by_cases hempty : miss0.isEmpty
  · rw [if_pos hempty] at h
    simp only [Prod.mk.injEq] at h
    obtain ⟨-, rfl, rfl⟩ := h
    refine ⟨hInv, rfl, hmiss0_sub, ?_⟩
    intro q hq
    rcases hcover0 q hq with hs | hm
    · exact Or.inl (hhit q hs)
    · exact Or.inr hm
  · rw [if_neg hempty] at h
    simp only [Prod.mk.injEq] at h
    obtain ⟨-, h2, h3⟩ := h
    have hfe : ∀ e ∈ s.db.selectInByLength miss0, e ∈ s.db.rows := by
      intro e he
      unfold Db.selectInByLength at he
      rw [mem_sortLe] at he
      exact List.mem_of_mem_filter he
    constructor
    · rw [← h3]
      refine ⟨hInv.1, ?_⟩
      have := coherent_fold hInv.1 _ hfe s.cache hInv.2
      rw [← fold_trip_snd2 _ anc0 miss0 s.cache] at this
      exact this
    refine ⟨by rw [← h3], ?_, ?_⟩
    · rw [← h2, fold_trip_snd1]
      exact (erase_fold_sublist _ _).trans hmiss0_sub
    · intro q hq
      rcases hcover0 q hq with hs | hm
      · exact Or.inl (hhit q hs)
      · rw [← h2, fold_trip_snd1]
        rcases erase_fold_mem _ _ q hm with hmm | ⟨e, he, hp⟩
        · exact Or.inr hmm
        · refine Or.inl ?_
          rw [Db.lookup, List.find?_isSome]
          exact ⟨e, hfe e he, by simp [hp]⟩

/-! ## Creation-loop specifications -/

/-- The entry returned by `_create` carries the created path. -/
theorem create_path {p : String} {a b c : Nat} {s : WState} {e : Entry}
    {s' : WState} (h : FSWriter.create p a b c s = some (e, s')) :
    e.path = p := by
  unfold FSWriter.create at h
  cases hlk : (s.db.replaceFs p a b c).lookup p with
  | none =>
    simp only [hlk] at h
    exact Option.noConfusion h
  | some e0 =>
    simp only [hlk, Option.some_inj, Prod.mk.injEq] at h
    exact h.1 ▸ lookup_path hlk

/-- After the creation loop: invariant kept, row presence monotone, and
every processed path present in the store. -/
theorem createLoop_post {wd : FSWriter.WData} {ms : List String}
    {last : Option Entry} {s : WState} {l' : Option Entry} {s' : WState}
    (hInv : Inv s) (h : FSWriter.createLoop wd ms last s = some (l', s')) :
    Inv s' ∧ (∀ q, (s.db.lookup q).isSome → (s'.db.lookup q).isSome) ∧
      ∀ m ∈ ms, (s'.db.lookup m).isSome := by
  induction ms generalizing last s with
  | nil =>
    unfold FSWriter.createLoop at h
    simp only [Option.some_inj, Prod.mk.injEq] at h
    obtain ⟨-, rfl⟩ := h
    exact ⟨hInv, fun _ hq => hq, by simp⟩
  | cons m rest ih =>
    unfold FSWriter.createLoop at h
    obtain ⟨e1, s1, hc⟩ := create_some m ((last.map Entry.id).getD 0) wd.type
      (if m = wd.path ∨ (m = dirname wd.path ∧ wd.type = FILE_TYPE) then
        FSWriter.DEFAULT_CONTENT_TYPE ||| wd.content_types
       else FSWriter.DEFAULT_CONTENT_TYPE) s
    simp only [hc] at h
    obtain ⟨hInv1, -, -, -, hm, hother, -⟩ := create_post hInv hc
    obtain ⟨hInv', hmono, hrest⟩ := ih hInv1 h
    refine ⟨hInv', ?_, ?_⟩
    · intro q hq
      refine hmono q ?_
      by_cases hqm : q = m
      · subst hqm; simp [hm]
      · rw [hother q hqm]; exact hq
    · intro x hx
      rcases List.mem_cons.mp hx with rfl | hxr
      · exact hmono x (by simp [hm])
      · exact hrest x hxr

/-- Once the parent's row contains the target's bits, the rest of the
creation loop keeps it so (re-creating the parent re-includes the bits
because the target is a FILE). -/
theorem createLoop_parent_preserve {wd : FSWriter.WData} {ms : List String}
    {last : Option Entry} {s : WState} {l' : Option Entry} {s' : WState}
    (hFile : wd.type = FILE_TYPE) (hInv : Inv s)
    (h : FSWriter.createLoop wd ms last s = some (l', s'))
    {r : Entry} (hr : s.db.lookup (dirname wd.path) = some r)
    (hB : r.content_types &&& wd.content_types = wd.content_types) :
    ∃ r', s'.db.lookup (dirname wd.path) = some r' ∧
      r'.content_types &&& wd.content_types = wd.content_types := by
  induction ms generalizing last s r with
  | nil =>
    unfold FSWriter.createLoop at h
    simp only [Option.some_inj, Prod.mk.injEq] at h
    obtain ⟨-, rfl⟩ := h
    exact ⟨r, hr, hB⟩
  | cons m rest ih =>
    unfold FSWriter.createLoop at h
    obtain ⟨e1, s1, hc⟩ := create_some m ((last.map Entry.id).getD 0) wd.type
      (if m = wd.path ∨ (m = dirname wd.path ∧ wd.type = FILE_TYPE) then
        FSWriter.DEFAULT_CONTENT_TYPE ||| wd.content_types
       else FSWriter.DEFAULT_CONTENT_TYPE) s
    simp only [hc] at h
    obtain ⟨hInv1, -, -, hcts, hm, hother, -⟩ := create_post hInv hc
    by_cases hmd : m = dirname wd.path
    · subst hmd
      rw [if_pos (Or.inr ⟨rfl, hFile⟩)] at hcts
      exact ih hInv1 h hm (by rw [hcts]; exact or_and_self)
    · exact ih hInv1 h (by rw [hother _ (fun hh => hmd hh.symm)]; exact hr) hB

/-- If the parent is among the missing paths and the target is a FILE,
the creation loop leaves the parent's row containing the target's bits. -/
theorem createLoop_parent_establish {wd : FSWriter.WData} {ms : List String}
    {last : Option Entry} {s : WState} {l' : Option Entry} {s' : WState}
    (hFile : wd.type = FILE_TYPE) (hInv : Inv s)
    (hmem : dirname wd.path ∈ ms)
    (h : FSWriter.createLoop wd ms last s = some (l', s')) :
    ∃ r', s'.db.lookup (dirname wd.path) = some r' ∧
      r'.content_types &&& wd.content_types = wd.content_types := by
  induction ms generalizing last s with
  | nil => simp at hmem
  | cons m rest ih =>
    unfold FSWriter.createLoop at h
    obtain ⟨e1, s1, hc⟩ := create_some m ((last.map Entry.id).getD 0) wd.type
      (if m = wd.path ∨ (m = dirname wd.path ∧ wd.type = FILE_TYPE) then
        FSWriter.DEFAULT_CONTENT_TYPE ||| wd.content_types
       else FSWriter.DEFAULT_CONTENT_TYPE) s
    simp only [hc] at h
    obtain ⟨hInv1, -, -, hcts, hm, hother, -⟩ := create_post hInv hc
    by_cases hmd : m = dirname wd.path
    · subst hmd
      rw [if_pos (Or.inr ⟨rfl, hFile⟩)] at hcts
      exact createLoop_parent_preserve hFile hInv1 h hm
        (by rw [hcts]; exact or_and_self)
    · rcases List.mem_cons.mp hmem with hh | hh
      · exact absurd hh.symm hmd
      · exact ih hInv1 hh h

/-- The loop's running entry ends as the last processed path's row. -/
theorem createLoop_last {wd : FSWriter.WData} {ms : List String}
    {last : Option Entry} {s : WState} {l' : Option Entry} {s' : WState}
    (hne : ms ≠ []) (h : FSWriter.createLoop wd ms last s = some (l', s')) :
    ∃ e, l' = some e ∧ e.path = ms.getLast hne := by
  induction ms generalizing last s with
  | nil => exact absurd rfl hne
  | cons m rest ih =>
    unfold FSWriter.createLoop at h
    cases hc : FSWriter.create m ((last.map Entry.id).getD 0) wd.type
      (if m = wd.path ∨ (m = dirname wd.path ∧ wd.type = FILE_TYPE) then
        FSWriter.DEFAULT_CONTENT_TYPE ||| wd.content_types
       else FSWriter.DEFAULT_CONTENT_TYPE) s with
    | none =>
      simp only [hc] at h
      exact Option.noConfusion h
    | some es1 =>
      simp only [hc] at h
      cases rest with
      | nil =>
        unfold FSWriter.createLoop at h
        simp only [Option.some_inj, Prod.mk.injEq] at h
        obtain ⟨rfl, -⟩ := h
        exact ⟨es1.1, rfl, by simpa using create_path hc⟩
      | cons m2 rest2 =>
        obtain ⟨e2, he2, hp2⟩ := ih (by simp) h
        exact ⟨e2, he2, by simpa using hp2⟩

/-- In a sublist of a list ending in `a` (with `a` nowhere earlier),
`a`, if present, is the last element. -/
theorem sublist_getLast {l m : List String} {a : String}
    (hsub : List.Sublist m l) (hl : l.getLast? = some a)
    (hnd : a ∉ l.dropLast) (ha : a ∈ m) : m.getLast? = some a := by
  have hne : l ≠ [] := by
    intro h0
    rw [h0] at hl
    simp at hl
  have hga : l.getLast hne = a := by
    have := List.getLast?_eq_getLast l hne
    rw [this] at hl
    exact Option.some_inj.mp hl
  have hsplit : l.dropLast ++ [a] = l := by
    rw [← hga]
    exact List.dropLast_append_getLast hne
  rw [← hsplit] at hsub
  obtain ⟨m1, m2, rfl, hm1, hm2⟩ := List.sublist_append_iff.mp hsub
  rcases List.sublist_singleton.mp hm2 with rfl | rfl
  · rw [List.append_nil] at ha
    exact absurd (hm1.subset ha) hnd
  · exact List.getLast?_concat m1

/-- `_update` preserves row presence. -/
theorem update1_isSome_mono {s : WState} {p : String} {c : Nat} {e : Entry}
    {s' : WState} (hInv : Inv s)
    (h : FSWriter.update1 p c s = some (e, s')) (q : String)
    (hq : (s.db.lookup q).isSome) : (s'.db.lookup q).isSome := by
  obtain ⟨-, -, hp, -, hother, -⟩ := update1_post hInv h
  by_cases hqp : q = p
  · subst hqp
    simp [hp]
  · rw [hother q hqp]
    exact hq

/-- `_update` never removes contained bits from any row. -/
theorem update1_cts_preserve {s : WState} {p : String} {c : Nat} {e : Entry}
    {s' : WState} {q : String} {r : Entry} {B : Nat} (hInv : Inv s)
    (h : FSWriter.update1 p c s = some (e, s'))
    (hr : s.db.lookup q = some r) (hB : r.content_types &&& B = B) :
    ∃ r', s'.db.lookup q = some r' ∧ r'.content_types &&& B = B := by
  obtain ⟨-, -, -, -, -, hdb⟩ := update1_post hInv h
  rcases hdb with hdb | hdb
  · exact ⟨r, hdb ▸ hr, hB⟩
  · rw [hdb]
    exact cts_superset_updateOrCts p c hr hB

/-- Master specification of `FSWriter.write`: under a coherent cache,
a completed write leaves the invariant intact, every chain ancestor
stored, the FILE target's parent bit-superset updated, and returns the
target's own record (when the constructor path is in canonical position
in its chain). -/
theorem write_spec {wd : FSWriter.WData} {s : WState} {e : Entry}
    {s' : WState} (hInv : Inv s)
    (h : FSWriter.write wd s = some (e, s')) :
    Inv s' ∧
    (∀ q ∈ ancestors_of wd.path, (s'.db.lookup q).isSome) ∧
    (wd.type = FILE_TYPE →
      ∃ r, s'.db.lookup (dirname wd.path) = some r ∧
        r.content_types &&& wd.content_types = wd.content_types) ∧
    ((ancestors_of wd.path).getLast? = some wd.path →
      wd.path ∉ (ancestors_of wd.path).dropLast → e.path = wd.path) := by
  obtain ⟨found, miss, s1, hgc⟩ :
      ∃ f m s1, FSWriter.getChain wd.path s = (f, m, s1) := ⟨_, _, _, rfl⟩
  unfold FSWriter.write at h
  simp only [hgc] at h
  obtain ⟨hInv1, hdb1, hsub, hcover⟩ := getChain_spec hInv hgc
  cases hcl : FSWriter.createLoop wd miss found.getLast? s1 with
  | none =>
    simp only [hcl] at h
    exact Option.noConfusion h
  | some ls2 =>
    obtain ⟨l2, s2⟩ := ls2
    simp only [hcl] at h
    obtain ⟨hInv2, hmono2, hmiss2⟩ := createLoop_post hInv1 hcl
    have hchain2 : ∀ q ∈ ancestors_of wd.path, (s2.db.lookup q).isSome := by
      intro q hq
      rcases hcover q hq with hs | hm
      · exact hmono2 q (by rw [hdb1]; exact hs)
      · exact hmiss2 q hm
    by_cases hcond : dirname wd.path ∉ miss ∧ wd.type = FILE_TYPE
    · rw [if_pos hcond] at h
      cases hu1 : FSWriter.update1 (dirname wd.path) wd.content_types s2 with
      | none =>
        simp only [hu1] at h
        exact Option.noConfusion h
      | some es3 =>
        obtain ⟨e3, s3⟩ := es3
        simp only [hu1] at h
        obtain ⟨hInv3, -, he3, he3c, -, -⟩ := update1_post hInv2 hu1
        have hmono3 : ∀ q, (s2.db.lookup q).isSome → (s3.db.lookup q).isSome :=
          fun q hq => update1_isSome_mono hInv2 hu1 q hq
        have hpar3 : ∃ r, s3.db.lookup (dirname wd.path) = some r ∧
            r.content_types &&& wd.content_types = wd.content_types :=
          ⟨e3, he3, he3c⟩
        by_cases hpm : wd.path ∉ miss
        · rw [if_pos hpm] at h
          cases hu2 : FSWriter.update1 wd.path wd.content_types s3 with
          | none =>
            simp only [hu2] at h
            exact Option.noConfusion h
          | some es4 =>
            obtain ⟨e4, s4⟩ := es4
            simp only [hu2, Option.some_inj, Prod.mk.injEq] at h
            obtain ⟨rfl, rfl⟩ := h
            obtain ⟨hInv4, he4p, -, -, -, -⟩ := update1_post hInv3 hu2
            refine ⟨hInv4, ?_, ?_, fun _ _ => he4p⟩
            · intro q hq
              exact update1_isSome_mono hInv3 hu2 q (hmono3 q (hchain2 q hq))
            · intro hFile
              obtain ⟨r, hr, hB⟩ := hpar3
              exact update1_cts_preserve hInv3 hu2 hr hB
        · rw [if_neg hpm] at h
          cases l2 with
          | none =>
            simp only [] at h
            exact Option.noConfusion h
          | some e2 =>
            simp only [Option.some_inj, Prod.mk.injEq] at h
            obtain ⟨rfl, rfl⟩ := h
            have hmemmiss : wd.path ∈ miss := not_not.mp hpm
            have hmne : miss ≠ [] := by
              intro h0
              rw [h0] at hmemmiss
              simp at hmemmiss
            refine ⟨hInv3, ?_, fun _ => hpar3, ?_⟩
            · intro q hq
              exact hmono3 q (hchain2 q hq)
            · intro hlast hnd
              obtain ⟨e2', he2', hp2⟩ := createLoop_last hmne hcl
              have hml : miss.getLast? = some wd.path :=
                sublist_getLast hsub hlast hnd hmemmiss
              rw [List.getLast?_eq_getLast miss hmne] at hml
              have he22 : e2 = e2' := Option.some_inj.mp he2'
              rw [he22, hp2]
              exact Option.some_inj.mp hml
    · rw [if_neg hcond] at h
      dsimp only at h
      by_cases hpm : wd.path ∉ miss
      · rw [if_pos hpm] at h
        cases hu2 : FSWriter.update1 wd.path wd.content_types s2 with
        | none =>
          simp only [hu2] at h
          exact Option.noConfusion h
        | some es4 =>
          obtain ⟨e4, s4⟩ := es4
          simp only [hu2, Option.some_inj, Prod.mk.injEq] at h
          obtain ⟨rfl, rfl⟩ := h
          obtain ⟨hInv4, he4p, -, -, -, -⟩ := update1_post hInv2 hu2
          refine ⟨hInv4, ?_, ?_, fun _ _ => he4p⟩
          · intro q hq
            exact update1_isSome_mono hInv2 hu2 q (hchain2 q hq)
          · intro hFile
            have hdm : dirname wd.path ∈ miss := by
              by_contra hdm
              exact hcond ⟨hdm, hFile⟩
            obtain ⟨r, hr, hB⟩ :=
              createLoop_parent_establish hFile hInv1 hdm hcl
            exact update1_cts_preserve hInv2 hu2 hr hB
      · rw [if_neg hpm] at h
        cases l2 with
        | none =>
          simp only [] at h
          exact Option.noConfusion h
        | some e2 =>
          simp only [Option.some_inj, Prod.mk.injEq] at h
          obtain ⟨rfl, rfl⟩ := h
          have hmemmiss : wd.path ∈ miss := not_not.mp hpm
          have hmne : miss ≠ [] := by
            intro h0
            rw [h0] at hmemmiss
            simp at hmemmiss
          refine ⟨hInv2, hchain2, ?_, ?_⟩
          · intro hFile
            have hdm : dirname wd.path ∈ miss := by
              by_contra hdm
              exact hcond ⟨hdm, hFile⟩
            exact createLoop_parent_establish hFile hInv1 hdm hcl
          · intro hlast hnd
            obtain ⟨e2', he2', hp2⟩ := createLoop_last hmne hcl
            have hml : miss.getLast? = some wd.path :=
              sublist_getLast hsub hlast hnd hmemmiss
            rw [List.getLast?_eq_getLast miss hmne] at hml
            have he22 : e2 = e2' := Option.some_inj.mp he2'
            rw [he22, hp2]
            exact Option.some_inj.mp hml

/-! ## Claim theorems -/

/-- C1: for every constructor data and every coherent starting state,
when `FSWriter.write()` completes, every ancestor path of the target
(the whole `ancestors_of` chain, root included) has an FS Node row
present in the store — no orphan nodes after a save. -/
theorem C1_save_ancestors_exist {wd : FSWriter.WData} {s : WState}
    {e : Entry} {s' : WState} (hInv : Inv s)
    (h : FSWriter.write wd s = some (e, s')) :
    ∀ q ∈ ancestors_of wd.path, (s'.db.lookup q).isSome :=
  (write_spec hInv h).2.1

/-- Witness for C1: a concrete completed write on the empty store. -/
theorem C1_save_ancestors_exist_witness :
    ∃ r, FSWriter.write wdRel s0 = some r ∧
      ∀ q ∈ ancestors_of wdRel.path, (r.2.db.lookup q).isSome := by
  cases hw : FSWriter.write wdRel s0 with
  | none => exact absurd hw (by decide)
  | some r => exact ⟨r, rfl, C1_save_ancestors_exist (by decide) hw⟩

/-- C2 (code evaluation at the failing input): on an empty store, saving
FILE path `"a/b/c.txt"` creates the chain in ancestor-to-descendant
order (serial ids 1..4) with each `parent_id` equal to the previous
step's id — but every created row, the root and the intermediate
directories included, carries the target's FILE type, not DIRECTORY as
the claim states. -/
theorem C2_ancestors_created_with_target_type :
    (FSWriter.write wdRel s0).map
        (fun r => r.2.db.rows.map (fun x => (x.path, x.id, x.parent_id, x.type))) =
      some [("", 1, 0, FILE_TYPE), ("a", 2, 1, FILE_TYPE),
            ("a/b", 3, 2, FILE_TYPE), ("a/b/c.txt", 4, 3, FILE_TYPE)] ∧
    FILE_TYPE ≠ DIRECTORY_TYPE := by decide

/-- C3 counterexample: the claimed root row with path `""` does not
exist after saving `"/a/b/c.txt"` on an empty store — four rows are
created, but the root of an absolute chain is `"/"`, not `""`. -/
theorem C3_counterexample_no_empty_root :
    (FSWriter.write wdAbs s0).map (fun r => (r.2.db.lookup "").isSome) =
      some false ∧
    (FSWriter.write wdAbs s0).map (fun r => r.2.db.rows.length) = some 4 := by
  decide

/-- C3 (amended): saving `"/a/b/c.txt"` type FILE with bits {TEXT} on an
empty store creates exactly four FS Node rows — the root with path `"/"`
(not `""`), `"/a"`, `"/a/b"` and `"/a/b/c.txt"` — where `"/a/b"` carries
the TEXT and GENERIC bits while `"/a"` does not carry the TEXT bit. -/
theorem C3_amended_four_nodes :
    (FSWriter.write wdAbs s0).map
        (fun r => r.2.db.rows.map (fun x => (x.path, x.content_types))) =
      some [("/", GENERIC_BITMASK), ("/a", GENERIC_BITMASK),
            ("/a/b", GENERIC_BITMASK ||| TEXT_BITMASK),
            ("/a/b/c.txt", GENERIC_BITMASK ||| TEXT_BITMASK)] ∧
    (GENERIC_BITMASK ||| TEXT_BITMASK) &&& TEXT_BITMASK = TEXT_BITMASK ∧
    (GENERIC_BITMASK ||| TEXT_BITMASK) &&& GENERIC_BITMASK = GENERIC_BITMASK ∧
    GENERIC_BITMASK &&& TEXT_BITMASK = 0 := by decide

/-- C4: for every FILE target and coherent starting state, when
`FSWriter.write()` completes, the direct parent directory's stored
`content_types` is a bitwise superset of the target's contributed
bitmask — whether the parent pre-existed or was created by this write. -/
theorem C4_parent_cts_superset {wd : FSWriter.WData} {s : WState}
    {e : Entry} {s' : WState} (hInv : Inv s)
    (hFile : wd.type = FILE_TYPE)
    (h : FSWriter.write wd s = some (e, s')) :
    ∃ r, s'.db.lookup (dirname wd.path) = some r ∧
      r.content_types &&& wd.content_types = wd.content_types :=
  (write_spec hInv h).2.2.1 hFile

/-- Witness for C4: the parent created by the write itself. -/
theorem C4_parent_cts_superset_witness :
    ∃ r, FSWriter.write wdRel s0 = some r ∧
      ∃ re, r.2.db.lookup (dirname wdRel.path) = some re ∧
        re.content_types &&& wdRel.content_types = wdRel.content_types := by
  cases hw : FSWriter.write wdRel s0 with
  | none => exact absurd hw (by decide)
  | some r => exact ⟨r, rfl, C4_parent_cts_superset (by decide) (by decide) hw⟩

/-- C5: a second `FSWriter.update()` with the same path and bitmask
returns the same entry and the very same state as the first — in
particular the store (rows and executed-write counter) is untouched:
the cache short-circuit sees the bits already contained and skips the
write. -/
theorem C5_update_idempotent {wd : FSWriter.WData} {s : WState}
    {e : Entry} {s1 : WState} (h : FSWriter.update wd s = some (e, s1)) :
    FSWriter.update wd s1 = some (e, s1) ∧
      (FSWriter.update wd s1).map (fun r => r.2.db.writes) =
        some s1.db.writes := by
  have hmain : FSWriter.update wd s1 = some (e, s1) := by
    unfold FSWriter.update FSWriter.update1 at h ⊢
    cases hcg : cacheGet s.cache (FSWriter.key wd.path) with
    | some e0 =>
      simp only [hcg] at h
      by_cases hin : e0.content_types &&& wd.content_types = wd.content_types
      · rw [if_pos (by simpa using hin)] at h
        simp only [Option.some_inj, Prod.mk.injEq] at h
        obtain ⟨rfl, rfl⟩ := h
        simp only [hcg]
        rw [if_pos (by simpa using hin)]
      · rw [if_neg (by simpa using hin)] at h
        simp only [Option.some_inj, Prod.mk.injEq] at h
        obtain ⟨rfl, rfl⟩ := h
        have hcg2 := cacheGet_cacheSet_self s.cache (FSWriter.key wd.path)
          { e0 with content_types := e0.content_types ||| wd.content_types }
        dsimp only
        simp only [hcg2]
        rw [if_pos (by simpa using (or_and_self (a := e0.content_types)
          (b := wd.content_types)))]
    | none =>
      simp only [hcg] at h
      cases hlk : (s.db.updateOrCts wd.path wd.content_types).lookup wd.path with
      | none =>
        simp only [hlk] at h
        exact Option.noConfusion h
      | some e1 =>
        simp only [hlk, Option.some_inj, Prod.mk.injEq] at h
        obtain ⟨rfl, rfl⟩ := h
        have hcts : e1.content_types &&& wd.content_types = wd.content_types := by
          rw [lookup_updateOrCts_self] at hlk
          cases hv : s.db.lookup wd.path with
          | none => rw [hv] at hlk; simp at hlk
          | some r =>
            rw [hv] at hlk
            simp only [Option.map_some', Option.some_inj] at hlk
            rw [← hlk]
            exact or_and_self
        have hcg2 := cacheGet_cacheSet_self s.cache (FSWriter.key wd.path) e1
        dsimp only
        simp only [hcg2]
        rw [if_pos (by simpa using hcts)]
  exact ⟨hmain, by rw [hmain]; rfl⟩

/-- Witness for C5: a first update on a one-row store, then the second. -/
theorem C5_update_idempotent_witness :
    ∃ r, FSWriter.update wdRel
        ⟨⟨[⟨1, 0, "a/b/c.txt", FILE_TYPE, GENERIC_BITMASK⟩], [], 2, 0⟩, []⟩ =
        some r ∧
      FSWriter.update wdRel r.2 = some (r.1, r.2) ∧
      (FSWriter.update wdRel r.2).map (fun x => x.2.db.writes) =
        some r.2.db.writes := by
  cases hw : FSWriter.update wdRel
      ⟨⟨[⟨1, 0, "a/b/c.txt", FILE_TYPE, GENERIC_BITMASK⟩], [], 2, 0⟩, []⟩ with
  | none => exact absurd hw (by decide)
  | some r =>
    obtain ⟨h1, h2⟩ := C5_update_idempotent hw
    exact ⟨r, rfl, h1, h2⟩

/-- C10: whenever `FSWriter.write()` completes under a coherent cache,
the returned record is the target path's own record — its `path` column
equals the constructor's path — in every case (target created, cached,
or fetched); the hypotheses pin the constructor path to its canonical
chain position (it is the final chain element and appears nowhere
earlier), which holds for every normalized path. -/
theorem C10_write_returns_target {wd : FSWriter.WData} {s : WState}
    {e : Entry} {s' : WState} (hInv : Inv s)
    (hlast : (ancestors_of wd.path).getLast? = some wd.path)
    (hnd : wd.path ∉ (ancestors_of wd.path).dropLast)
    (h : FSWriter.write wd s = some (e, s')) : e.path = wd.path :=
  (write_spec hInv h).2.2.2 hlast hnd

/-- Witness for C10: the returned record of a completed concrete write
carries the target path. -/
theorem C10_write_returns_target_witness :
    ∃ r, FSWriter.write wdRel s0 = some r ∧ r.1.path = wdRel.path := by
  cases hw : FSWriter.write wdRel s0 with
  | none => exact absurd hw (by decide)
  | some r =>
    exact ⟨r, rfl,
      C10_write_returns_target (by decide) (by decide) (by decide) hw⟩

/-- A join headed by a nonempty component is nonempty. -/
theorem joinSlash_cons_ne_nil (h : List Char) (t : List (List Char))
    (hh : h ≠ []) : joinSlash (h :: t) ≠ [] := by
  cases t with
  | nil => simpa [joinSlash] using hh
  | cons y ys => simp [joinSlash, hh]

/-- The join of a prefix of components is an initial segment of the
whole join. -/
theorem joinSlash_take_startOf (l : List (List Char)) (k : Nat)
    (hk : 0 < k) : startOf (joinSlash (l.take k)) (joinSlash l) := by
  induction l generalizing k with
  | nil => exact ⟨[], by simp⟩
  | cons h t ih =>
    obtain ⟨k', rfl⟩ : ∃ k', k = k' + 1 :=
      ⟨k - 1, (Nat.succ_pred_eq_of_pos hk).symm⟩
    cases k' with
    | zero =>
      cases t with
      | nil => exact ⟨[], by simp [joinSlash]⟩
      | cons y ys =>
        exact ⟨'/' :: joinSlash (y :: ys), by simp [joinSlash]⟩
    | succ k'' =>
      cases t with
      | nil => exact ⟨[], by simp [joinSlash]⟩
      | cons y ys =>
        obtain ⟨u, hu⟩ := ih (k'' + 1) (Nat.succ_pos _)
        cases htk : (y :: ys).take (k'' + 1) with
        | nil => simp at htk
        | cons z zs =>
          rw [htk] at hu
          refine ⟨u, ?_⟩
          have hgoal : (h :: y :: ys).take (k'' + 1 + 1) = h :: z :: zs := by
            rw [List.take_succ_cons, htk]
          rw [hgoal]
          simp only [joinSlash]
          rw [List.append_assoc, List.cons_append, hu]

/-- Appending one more component extends the join by a separator and
that component. -/
theorem joinSlash_append_singleton (xs : List (List Char)) (z : List Char)
    (hxs : xs ≠ []) : joinSlash (xs ++ [z]) = joinSlash xs ++ '/' :: z := by
  induction xs with
  | nil => exact absurd rfl hxs
  | cons h t ih =>
    cases t with
    | nil => simp [joinSlash]
    | cons y ys =>
      have hih := ih (List.cons_ne_nil y ys)
      simp only [List.cons_append, joinSlash] at hih ⊢
      simp only [List.append_eq]
      rw [hih]
      simp

/-- The last element of a map over `range`. -/
theorem range_map_getLast {α : Type} (f : Nat → α) (n : Nat) (hn : 0 < n) :
    ((List.range n).map f).getLast? = some (f (n - 1)) := by
  obtain ⟨m, rfl⟩ := Nat.exists_eq_add_of_lt hn
  rw [Nat.zero_add, List.range_succ, List.map_append, List.map_cons,
    List.map_nil, List.getLast?_concat]
  simp

/-- C8: `ancestors_of` is a pure function returning the chain from the
tree root to the path itself: the absolute root path yields only itself;
the relative current-directory path `"."` yields the single empty-string
root marker; and every other relative path (in normal form, as the
special cases are phrased on the normalized path) yields the
empty-string root marker first, followed by one entry per path
component — each a strictly longer initial segment of the path — ending
with the path itself. -/
theorem C8_ancestors_of_shape :
    ancestors_of "/" = ["/"] ∧ ancestors_of "." = [""] ∧
    ∀ p : String, normpath p = p → p.toList.take 1 ≠ ['/'] → p ≠ "." →
      ∃ l, ancestors_of p = "" :: l ∧
        l.length = (splitOnSlash p.toList).length ∧
        l.getLast? = some p ∧
        (∀ q ∈ l, startOf q.toList p.toList) ∧
        List.Chain' (fun a b : String =>
          startOf a.toList b.toList ∧ a.toList.length < b.toList.length) l := by
  refine ⟨by decide, by decide, ?_⟩
  intro p hnorm hrel hdot
  have hpne : p ≠ "" := by
    intro h0
    subst h0
    have h1 : normpath "" = "." := by decide
    rw [h1] at hnorm
    exact absurd hnorm (by decide)
  have hps : p ≠ "/" := by
    intro h0
    subst h0
    exact hrel (by decide)
  obtain ⟨c, cs, hp⟩ : ∃ c cs, p.toList = c :: cs := by
    cases hpl : p.toList with
    | nil =>
      exfalso
      apply hpne
      have h2 := congrArg String.mk hpl
      exact h2
    | cons c cs => exact ⟨c, cs, rfl⟩
  have hc : c ≠ '/' := by
    intro h0
    subst h0
    exact hrel (by rw [hp]; rfl)
  obtain ⟨h0, t0, hsp⟩ :
      ∃ h0 t0, splitOnSlash p.toList = (c :: h0) :: t0 := by
    rw [hp]
    simp only [splitOnSlash, if_neg hc]
    cases hss : splitOnSlash cs with
    | nil => exact absurd hss (splitOnSlash_ne_nil cs)
    | cons a b => exact ⟨a, b, rfl⟩
  have hn : 0 < (splitOnSlash p.toList).length := by
    rw [hsp]
    simp
  have htake_ne : ∀ i : Nat, (splitOnSlash p.toList).take (i + 1) ≠ [] := by
    intro i
    rw [hsp]
    simp
  have hjoin_ne : ∀ i : Nat,
      joinSlash ((splitOnSlash p.toList).take (i + 1)) ≠ [] := by
    intro i
    rw [hsp, List.take_succ_cons]
    exact joinSlash_cons_ne_nil _ _ (List.cons_ne_nil c h0)
  have hform : ancestors_of p =
      "" :: (List.range (splitOnSlash p.toList).length).map
        (fun i => String.mk (joinSlash ((splitOnSlash p.toList).take (i + 1)))) := by
    unfold ancestors_of
    rw [hnorm]
    rw [if_neg hps, if_neg hdot]
    dsimp only
    have hhead : (splitOnSlash p.toList).headD [] ≠ [] := by
      rw [hsp]
      simp
    rw [if_pos hhead]
    show [""] ++ _ = "" :: _
    rw [List.singleton_append]
    congr 1
    refine List.map_congr_left ?_
    intro i _
    rw [if_neg (hjoin_ne i)]
  refine ⟨_, hform, by simp, ?_, ?_, ?_⟩
  · rw [range_map_getLast _ _ hn]
    have h1 : (splitOnSlash p.toList).length - 1 + 1 =
        (splitOnSlash p.toList).length := Nat.succ_pred_eq_of_pos hn
    rw [h1, List.take_length, joinSlash_splitOnSlash]
    rfl
  · intro q hq
    obtain ⟨i, -, rfl⟩ := List.mem_map.mp hq
    show startOf (joinSlash ((splitOnSlash p.toList).take (i + 1))) p.toList
    have := joinSlash_take_startOf (splitOnSlash p.toList) (i + 1)
      (Nat.succ_pos i)
    rwa [joinSlash_splitOnSlash] at this
  · rw [List.chain'_map]
    obtain ⟨m, hm⟩ : ∃ m, (splitOnSlash p.toList).length = m + 1 :=
      ⟨(splitOnSlash p.toList).length - 1,
       (Nat.succ_pred_eq_of_pos hn).symm⟩
    rw [hm, List.chain'_range_succ]
    intro i him
    have hi1 : i + 1 < (splitOnSlash p.toList).length := by
      rw [hm]
      exact Nat.succ_lt_succ him
    have hsplit : (splitOnSlash p.toList).take (i + 1 + 1) =
        (splitOnSlash p.toList).take (i + 1) ++
          [(splitOnSlash p.toList).get ⟨i + 1, hi1⟩] := by
      rw [← List.take_concat_get _ _ hi1, List.concat_eq_append]
      rfl
    constructor
    · show startOf (joinSlash ((splitOnSlash p.toList).take (i + 1)))
        (joinSlash ((splitOnSlash p.toList).take (i + 1 + 1)))
      have := joinSlash_take_startOf
        ((splitOnSlash p.toList).take (i + 1 + 1)) (i + 1) (Nat.succ_pos i)
      rwa [List.take_take, Nat.min_eq_left (Nat.le_succ _)] at this
    · show (joinSlash ((splitOnSlash p.toList).take (i + 1))).length <
        (joinSlash ((splitOnSlash p.toList).take (i + 1 + 1))).length
      rw [hsplit, joinSlash_append_singleton _ _ (htake_ne i)]
      simp

/-- Witness for C8: the third conjunct applied to the concrete relative
path `"a/b"`, hypotheses evaluated. -/
theorem C8_ancestors_of_shape_witness :
    ∃ l, ancestors_of "a/b" = "" :: l ∧
      l.length = (splitOnSlash "a/b".toList).length ∧
      l.getLast? = some "a/b" ∧
      (∀ q ∈ l, startOf q.toList "a/b".toList) ∧
      List.Chain' (fun a b : String =>
        startOf a.toList b.toList ∧ a.toList.length < b.toList.length) l :=
  C8_ancestors_of_shape.2.2 "a/b" (by decide) (by decide) (by decide)

/-! ## `_reconstruct_meta` structure (C7) -/

/-- Concatenating the groups gives back the rows. -/
theorem groupRuns_flatten (rows : List Row) :
    (groupRuns rows).flatten = rows := by
  induction rows with
  | nil => rfl
  | cons r rest ih =>
    simp only [groupRuns]
    cases hg : groupRuns rest with
    | nil =>
      rw [hg] at ih
      simp only [List.flatten_nil] at ih
      dsimp only
      simp [← ih]
    | cons g gs =>
      rw [hg] at ih
      cases g with
      | nil =>
        dsimp only
        simp only [List.flatten_cons, List.nil_append] at ih
        simp [List.flatten_cons, ih]
      | cons h gtail =>
        dsimp only
        by_cases hrp : r.path = h.path
        · rw [if_pos hrp]
          simp only [List.flatten_cons] at ih ⊢
          simp [← ih]
        · rw [if_neg hrp]
          simp only [List.flatten_cons] at ih ⊢
          simp [← ih]

/-- Groups are never empty. -/
theorem groupRuns_ne_nil (rows : List Row) :
    ∀ g ∈ groupRuns rows, g ≠ [] := by
  induction rows with
  | nil => simp [groupRuns]
  | cons r rest ih =>
    intro g hg
    simp only [groupRuns] at hg
    cases hgr : groupRuns rest with
    | nil =>
      rw [hgr] at hg
      simp only at hg
      simp only [List.mem_singleton] at hg
      simp [hg]
    | cons g0 gs =>
      rw [hgr] at hg
      cases g0 with
      | nil =>
        dsimp only at hg
        rcases List.mem_cons.mp hg with rfl | hmem
        · simp
        · exact ih g (hgr ▸ List.mem_cons_of_mem _ hmem)
      | cons h gtail =>
        dsimp only at hg
        by_cases hrp : r.path = h.path
        · rw [if_pos hrp] at hg
          rcases List.mem_cons.mp hg with rfl | hmem
          · simp
          · exact ih g (hgr ▸ List.mem_cons_of_mem _ hmem)
        · rw [if_neg hrp] at hg
          rcases List.mem_cons.mp hg with rfl | hmem
          · simp
          · exact ih g (hgr ▸ hmem)

/-- Rows of a group are rows of the input. -/
theorem mem_groups_mem {rows : List Row} {g : List Row}
    (hg : g ∈ groupRuns rows) {x : Row} (hx : x ∈ g) : x ∈ rows := by
  rw [← groupRuns_flatten rows]
  exact List.mem_flatten.mpr ⟨g, hg, hx⟩

/-- The head path of a group is a path of the input. -/
theorem headD_path_mem {rows : List Row} {g : List Row}
    (hg : g ∈ groupRuns rows) :
    (g.headD default).path ∈ rows.map Row.path := by
  have hne := groupRuns_ne_nil rows g hg
  cases g with
  | nil => exact absurd rfl hne
  | cons a b =>
    exact List.mem_map_of_mem _ (mem_groups_mem hg (List.mem_cons_self a b))

/-- Lexicographic character order is antisymmetric. -/
theorem charListLe_antisymm : ∀ {a b : List Char},
    charListLe a b = true → charListLe b a = true → a = b := by
  intro a
  induction a with
  | nil =>
    intro b h1 h2
    cases b with
    | nil => rfl
    | cons y ys => simp [charListLe] at h2
  | cons x xs ih =>
    intro b h1 h2
    cases b with
    | nil => simp [charListLe] at h1
    | cons y ys =>
      simp only [charListLe] at h1 h2
      by_cases hxy : x = y
      · subst hxy
        rw [if_pos rfl] at h1 h2
        rw [ih h1 h2]
      · rw [if_neg hxy] at h1
        rw [if_neg (fun hh => hxy hh.symm)] at h2
        have l1 : x.val.toNat < y.val.toNat := of_decide_eq_true h1
        have l2 : y.val.toNat < x.val.toNat := of_decide_eq_true h2
        exact absurd l2 (Nat.lt_asymm l1)

/-- Path order is antisymmetric. -/
theorem pathLe_antisymm {a b : String} (h1 : pathLe a b = true)
    (h2 : pathLe b a = true) : a = b := by
  unfold pathLe at h1 h2
  have := charListLe_antisymm h1 h2
  cases a; cases b
  exact congrArg String.mk this

/-- Under a path-sorted tail, a head row whose path differs from the
next row's occurs nowhere in the tail. -/
theorem sorted_head_notin {r h : Row} {t : List Row}
    (hp : ∀ x ∈ h :: t, pathLe r.path x.path = true)
    (hrest : List.Pairwise (fun a b : Row => pathLe a.path b.path = true) (h :: t))
    (hne : r.path ≠ h.path) : r.path ∉ (h :: t).map Row.path := by
  intro hmem
  obtain ⟨x, hx, hxp⟩ := List.mem_map.mp hmem
  rcases List.mem_cons.mp hx with rfl | hxt
  · exact hne hxp.symm
  · have h1 : pathLe h.path x.path = true :=
      (List.pairwise_cons.mp hrest).1 x hxt
    have h2 : pathLe r.path h.path = true := hp h (List.mem_cons_self h t)
    exact hne (pathLe_antisymm h2 (hxp ▸ h1))

/-- The structure of `itertools.groupby` on path-sorted rows: one group
per distinct path (first-occurrence order), and each group is exactly
the rows carrying its path. -/
theorem groupRuns_spec (rows : List Row)
    (hs : List.Pairwise (fun a b : Row => pathLe a.path b.path = true) rows) :
    (groupRuns rows).map (fun g => (g.headD default).path) =
        (rows.map Row.path).dedup ∧
    ∀ g ∈ groupRuns rows,
      g = rows.filter (fun x => x.path == (g.headD default).path) := by
  induction rows with
  | nil => exact ⟨rfl, by simp [groupRuns]⟩
  | cons r rest ih =>
    obtain ⟨hp, hrest⟩ := List.pairwise_cons.mp hs
    obtain ⟨ih1, ih2⟩ := ih hrest
    simp only [groupRuns]
    cases hgr : groupRuns rest with
    | nil =>
      have hrnil : rest = [] := by
        have hfl := groupRuns_flatten rest
        rw [hgr] at hfl
        simpa using hfl.symm
      subst hrnil
      refine ⟨by simp, ?_⟩
      intro g hg
      dsimp only at hg
      simp only [List.mem_singleton] at hg
      subst hg
      simp [List.filter]
    | cons g0 gs =>
      have hflat := groupRuns_flatten rest
      rw [hgr] at hflat
      have hg0ne : g0 ≠ [] :=
        groupRuns_ne_nil rest g0 (hgr ▸ List.mem_cons_self _ _)
      obtain ⟨h, gtail, rfl⟩ : ∃ a b, g0 = a :: b := by
        cases g0 with
        | nil => exact absurd rfl hg0ne
        | cons a b => exact ⟨a, b, rfl⟩
      have hrestform : rest = h :: (gtail ++ gs.flatten) := by
        simpa using hflat.symm
      rw [hgr] at ih1 ih2
      have hnd : (((h :: gtail) :: gs).map
          (fun g => (g.headD default).path)).Nodup := by
        rw [ih1]
        exact List.nodup_dedup _
      dsimp only
      by_cases hrp : r.path = h.path
      · rw [if_pos hrp]
        have hmem : r.path ∈ rest.map Row.path := by
          rw [hrestform]
          simp [hrp]
        refine ⟨?_, ?_⟩
        · simp only [List.map_cons, List.headD_cons] at ih1 ⊢
          rw [List.dedup_cons_of_mem hmem, ← ih1, hrp]
        · intro g hg
          rcases List.mem_cons.mp hg with rfl | hmem2
          · have hfirst : h :: gtail =
                List.filter (fun x => x.path == h.path) rest :=
              ih2 (h :: gtail) (List.mem_cons_self _ _)
            show r :: h :: gtail =
              List.filter (fun x => x.path == r.path) (r :: rest)
            rw [List.filter_cons, if_pos (by simp)]
            congr 1
            rw [hrp]
            exact hfirst
          · have hlater := ih2 g (List.mem_cons_of_mem _ hmem2)
            have hqh : (g.headD default).path ≠ h.path := by
              intro hqe
              simp only [List.map_cons, List.headD_cons,
                List.nodup_cons] at hnd
              exact hnd.1 (hqe ▸ List.mem_map_of_mem _ hmem2)
            have hcond : ¬((r.path == (g.headD default).path) = true) := by
              intro hcond
              have : r.path = (g.headD default).path := by
                simpa using hcond
              exact hqh (by rw [← this]; exact hrp)
            rw [List.filter_cons, if_neg hcond]
            exact hlater
      · rw [if_neg hrp]
        have hnotin : r.path ∉ rest.map Row.path := by
          rw [hrestform]
          rw [hrestform] at hp hrest
          exact sorted_head_notin hp hrest hrp
        refine ⟨?_, ?_⟩
        · simp only [List.map_cons, List.headD_cons] at ih1 ⊢
          rw [List.dedup_cons_of_not_mem hnotin, ← ih1]
        · intro g hg
          rcases List.mem_cons.mp hg with rfl | hmem2
          · show [r] = List.filter (fun x => x.path == r.path) (r :: rest)
            rw [List.filter_cons, if_pos (by simp)]
            have hnf : rest.filter (fun x => x.path == r.path) = [] := by
              rw [List.filter_eq_nil_iff]
              intro x hx hh
              exact hnotin ((eq_of_beq hh) ▸ List.mem_map_of_mem Row.path hx)
            rw [hnf]
          · have hlater := ih2 g hmem2
            have hqmem : (g.headD default).path ∈ rest.map Row.path :=
              headD_path_mem (hgr ▸ hmem2 : g ∈ groupRuns rest)
            have hcond : ¬((r.path == (g.headD default).path) = true) := by
              intro hcond
              have : r.path = (g.headD default).path := by
                simpa using hcond
              exact hnotin (this ▸ hqmem)
            rw [List.filter_cons, if_neg hcond]
            exact hlater

/-- On a nonempty group the reconstructed view takes its `path` from the
group key (first row), its FS Node columns from the final row, and its
metadata from the truthy-key fold. -/
theorem viewOfGroup_fields {g : List Row} (hne : g ≠ []) :
    ∃ firstRow lastRow, g.head? = some firstRow ∧ g.getLast? = some lastRow ∧
      viewOfGroup g = ⟨firstRow.path, lastRow.id, lastRow.parent_id,
        lastRow.type, lastRow.content_types, buildMeta g⟩ := by
  cases g with
  | nil => exact absurd rfl hne
  | cons a b =>
    refine ⟨a, (a :: b).getLast (by simp), rfl,
      List.getLast?_eq_getLast _ (by simp), ?_⟩
    unfold viewOfGroup
    rw [List.getLast?_eq_getLast (a :: b) (by simp)]
    rfl

/-- The view's path is the group's head path. -/
theorem viewOfGroup_path {g : List Row} (hne : g ≠ []) :
    (viewOfGroup g).path = (g.headD default).path := by
  obtain ⟨firstRow, lastRow, hh, -, hv⟩ := viewOfGroup_fields hne
  rw [hv]
  cases g with
  | nil => exact absurd rfl hne
  | cons a b =>
    simp only [List.head?_cons, Option.some_inj] at hh
    simp [← hh]

/-- Rows with a falsy `key` contribute nothing to the metadata fold. -/
theorem buildMeta_filter_truthy (g : List Row) :
    buildMeta (g.filter rowKeyTruthy) = buildMeta g := by
  suffices h : ∀ acc, (g.filter rowKeyTruthy).foldl (fun acc r =>
      match r.key with
      | none => acc
      | some k => if k = "" then acc else mmPut acc r.language k r.value)
        acc = g.foldl (fun acc r =>
      match r.key with
      | none => acc
      | some k => if k = "" then acc else mmPut acc r.language k r.value)
        acc from h []
  induction g with
  | nil => intro acc; rfl
  | cons r rest ih =>
    intro acc
    by_cases ht : rowKeyTruthy r
    · rw [List.filter_cons, if_pos (by simpa using ht)]
      simp only [List.foldl_cons]
      exact ih _
    · rw [List.filter_cons, if_neg (by simpa using ht)]
      simp only [List.foldl_cons]
      have hstep : (match r.key with
          | none => acc
          | some k => if k = "" then acc else mmPut acc r.language k r.value)
          = acc := by
        unfold rowKeyTruthy at ht
        cases hk : r.key with
        | none => rfl
        | some k =>
          rw [hk] at ht
          simp only [ne_eq, Bool.not_eq_true, decide_eq_false_iff_not,
            not_not] at ht
          show (if k = "" then acc else mmPut acc r.language k r.value) = acc
          rw [if_pos ht]
      rw [hstep]
      exact ih _

/-- C7: on rows pre-sorted by path (with the FS Node columns functions
of the path, as in the join output), `_reconstruct_meta` produces
exactly one Metadata View per distinct path, in input order (never
re-sorting); rows with a falsy key contribute no language/key/value
entry yet carry the FS Node columns of their view (every row of the
view's path agrees with the view's FS fields), and each view's metadata
is built from exactly the truthy-key rows of its path. -/
theorem C7_reconstruct_meta_grouping (rows : List Row)
    (hs : List.Pairwise (fun a b : Row => pathLe a.path b.path = true) rows)
    (hFS : ∀ r1 ∈ rows, ∀ r2 ∈ rows, r1.path = r2.path →
      r1.id = r2.id ∧ r1.parent_id = r2.parent_id ∧ r1.type = r2.type ∧
      r1.content_types = r2.content_types) :
    ((reconstructMeta rows).map MetaView.path = (rows.map Row.path).dedup) ∧
    (∀ v ∈ reconstructMeta rows, ∀ r ∈ rows, r.path = v.path →
      v.id = r.id ∧ v.parent_id = r.parent_id ∧ v.type = r.type ∧
      v.content_types = r.content_types) ∧
    (∀ v ∈ reconstructMeta rows, v.meta =
      buildMeta ((rows.filter (fun x => x.path == v.path)).filter
        rowKeyTruthy)) := by
  obtain ⟨hdedup, hgroups⟩ := groupRuns_spec rows hs
  have hvpath : ∀ g ∈ groupRuns rows,
      (viewOfGroup g).path = (g.headD default).path :=
    fun g hg => viewOfGroup_path (groupRuns_ne_nil rows g hg)
  refine ⟨?_, ?_, ?_⟩
  · unfold reconstructMeta
    rw [List.map_map, ← hdedup]
    exact List.map_congr_left (fun g hg => hvpath g hg)
  · intro v hv r hr hrp
    obtain ⟨g, hg, rfl⟩ := List.mem_map.mp hv
    have hne := groupRuns_ne_nil rows g hg
    obtain ⟨firstRow, lastRow, hh, hl, hview⟩ := viewOfGroup_fields hne
    have hgfilter := hgroups g hg
    have hlast_mem : lastRow ∈ g := by
      cases g with
      | nil => exact absurd rfl hne
      | cons a b =>
        rw [List.getLast?_eq_getLast (a :: b) (by simp)] at hl
        have hgl : (a :: b).getLast (by simp) = lastRow :=
          Option.some_inj.mp hl
        rw [← hgl]
        exact List.getLast_mem _
    have hlast_path : lastRow.path = (g.headD default).path := by
      rw [hgfilter] at hlast_mem
      have := List.of_mem_filter hlast_mem
      exact eq_of_beq this
    have hvp : (viewOfGroup g).path = (g.headD default).path := hvpath g hg
    have hlast_in_rows : lastRow ∈ rows := by
      rw [hgfilter] at hlast_mem
      exact List.mem_of_mem_filter hlast_mem
    have hfs := hFS lastRow hlast_in_rows r hr
      (by rw [hlast_path, ← hvp, ← hrp])
    rw [hview]
    exact ⟨hfs.1.symm ▸ rfl, hfs.2.1.symm ▸ rfl, hfs.2.2.1.symm ▸ rfl,
      hfs.2.2.2.symm ▸ rfl⟩
  · intro v hv
    obtain ⟨g, hg, rfl⟩ := List.mem_map.mp hv
    have hne := groupRuns_ne_nil rows g hg
    obtain ⟨firstRow, lastRow, hh, hl, hview⟩ := viewOfGroup_fields hne
    have hgfilter := hgroups g hg
    have hvp : (viewOfGroup g).path = (g.headD default).path := hvpath g hg
    rw [hvp, ← hgfilter, buildMeta_filter_truthy, hview]

/-- Witness for C7: three join rows over two paths, the middle one with
a NULL key. -/
theorem C7_reconstruct_meta_grouping_witness :
    (((reconstructMeta rowsW).map MetaView.path =
        (rowsW.map Row.path).dedup) ∧
    (∀ v ∈ reconstructMeta rowsW, ∀ r ∈ rowsW, r.path = v.path →
      v.id = r.id ∧ v.parent_id = r.parent_id ∧ v.type = r.type ∧
      v.content_types = r.content_types) ∧
    (∀ v ∈ reconstructMeta rowsW, v.meta =
      buildMeta ((rowsW.filter (fun x => x.path == v.path)).filter
        rowKeyTruthy))) :=
  C7_reconstruct_meta_grouping rowsW (by decide) (by decide)

/-! ## `Archive.get` key set (C6) -/

/-- Every reconstructed view's path is a row path. -/
theorem reconstructMeta_path_mem {rows : List Row} {v : MetaView}
    (hv : v ∈ reconstructMeta rows) : v.path ∈ rows.map Row.path := by
  obtain ⟨g, hg, rfl⟩ := List.mem_map.mp hv
  rw [viewOfGroup_path (groupRuns_ne_nil rows g hg)]
  exact headD_path_mem hg

/-- Every row of the join carries one of the requested paths. -/
theorem selectJoinedRows_path_mem {db : Db} {paths : List String} {r : Row}
    (hr : r ∈ selectJoinedRows db paths) : r.path ∈ paths := by
  unfold selectJoinedRows at hr
  rw [List.mem_flatten] at hr
  obtain ⟨l, hl, hrl⟩ := hr
  obtain ⟨f, hf, rfl⟩ := List.mem_map.mp hl
  rw [mem_sortLe] at hf
  have hfp : f.path ∈ paths := by
    have := (List.mem_filter.mp hf).2
    simpa using this
  by_cases hms : (db.meta.filter (fun m => m.fs_id == f.id)).isEmpty
  · rw [if_pos hms] at hrl
    simp only [List.mem_singleton] at hrl
    rw [hrl]
    exact hfp
  · rw [if_neg hms] at hrl
    obtain ⟨m, -, rfl⟩ := List.mem_map.mp hrl
    exact hfp

/-- Key membership after one `dict.update` step. -/
theorem dictUpdate_step_keys (d : List (String × GetVal))
    (kv : String × GetVal) (k : String) :
    (k ∈ (if d.any (fun kv' => kv'.1 == kv.1) then
        d.map (fun kv' => if kv'.1 == kv.1 then kv else kv')
      else d ++ [kv]).map Prod.fst) ↔
      (k ∈ d.map Prod.fst ∨ k = kv.1) := by
  by_cases hany : d.any (fun kv' => kv'.1 == kv.1)
  · rw [if_pos hany]
    have hkeys : (d.map (fun kv' => if kv'.1 == kv.1 then kv else kv')).map
        Prod.fst = d.map Prod.fst := by
      rw [List.map_map]
      refine List.map_congr_left ?_
      intro kv' _
      dsimp only [Function.comp]
      by_cases h : kv'.1 == kv.1
      · rw [if_pos h]
        exact (eq_of_beq h).symm
      · rw [if_neg h]
    rw [hkeys]
    constructor
    · exact Or.inl
    · rintro (hk | rfl)
      · exact hk
      · obtain ⟨x, hx, hxk⟩ := List.any_eq_true.mp hany
        exact (eq_of_beq hxk) ▸ List.mem_map_of_mem Prod.fst hx
  · rw [if_neg hany]
    simp [eq_comm]

/-- Key membership in a `dict.update`. -/
theorem dictUpdate_keys (d d' : List (String × GetVal)) (k : String) :
    k ∈ (dictUpdate d d').map Prod.fst ↔
      k ∈ d.map Prod.fst ∨ k ∈ d'.map Prod.fst := by
  induction d' generalizing d with
  | nil => simp [dictUpdate]
  | cons kv rest ih =>
    unfold dictUpdate at ih ⊢
    rw [List.foldl_cons, ih, dictUpdate_step_keys]
    simp only [List.map_cons, List.mem_cons]
    tauto

/-- C6 counterexample to strictness: with the single requested path
already stored, `get(paths, ignore_missing=True)` returns the full key
set — exactly the requested paths, not a strict subset. -/
theorem C6_counterexample_not_strict :
    (Archive.get ⟨[⟨1, 0, "a", FILE_TYPE, GENERIC_BITMASK⟩], [], 2, 0⟩
        ["a"] true true).1.map Prod.fst = ["a"] := by decide

/-- C6 (amended): `get(paths, ignore_missing=True)` returns a (not
necessarily strict) subset of `paths` as keys; with
`ignore_missing=False` the key set is exactly the requested paths —
found paths with store data, missing ones with analyzer results. -/
theorem C6_amended_keyset (db : Db) (paths : List String) (quick : Bool) :
    (∀ k ∈ (Archive.get db paths quick true).1.map Prod.fst, k ∈ paths) ∧
    (∀ p, p ∈ (Archive.get db paths quick false).1.map Prod.fst ↔
      p ∈ paths) := by
  have hdata : ∀ k ∈ ((reconstructMeta (selectJoinedRows db paths)).map
      (fun v => (v.path, GetVal.stored v))).map Prod.fst, k ∈ paths := by
    intro k hk
    rw [List.map_map] at hk
    obtain ⟨v, hv, rfl⟩ := List.mem_map.mp hk
    show v.path ∈ paths
    obtain ⟨r, hr, hrp⟩ := List.mem_map.mp (reconstructMeta_path_mem hv)
    exact hrp ▸ selectJoinedRows_path_mem hr
  constructor
  · intro k hk
    unfold Archive.get at hk
    rw [if_pos rfl] at hk
    exact hdata k hk
  · intro p
    unfold Archive.get
    rw [if_neg (by simp)]
    set data := (reconstructMeta (selectJoinedRows db paths)).map
      (fun v => (v.path, GetVal.stored v)) with hdataeq
    by_cases hme : ((paths.filter
        (fun p => ! data.any (fun kv => kv.1 == p))).dedup).isEmpty
    · rw [if_pos hme]
      constructor
      · intro hp
        exact hdata p hp
      · intro hp
        rw [List.isEmpty_iff, List.dedup_eq_nil,
          List.filter_eq_nil_iff] at hme
        have hany := hme p hp
        simp only [Bool.not_eq_true', Bool.not_eq_false] at hany
        obtain ⟨kv, hkv, hkvp⟩ := List.any_eq_true.mp hany
        show p ∈ data.map Prod.fst
        exact (eq_of_beq hkvp) ▸ List.mem_map_of_mem Prod.fst hkv
    · rw [if_neg hme]
      have hmiss : ∀ k, k ∈ (paths.filter
          (fun p => ! data.any (fun kv => kv.1 == p))).dedup → k ∈ paths := by
        intro k hk
        rw [List.mem_dedup] at hk
        exact (List.mem_filter.mp hk).1
      have hsplit : ∀ (b : Bool),
          (p ∈ (dictUpdate data (((paths.filter
            (fun p => ! data.any (fun kv => kv.1 == p))).dedup).map
              (fun p => (p, GetVal.analyzed b p)))).map Prod.fst ↔ p ∈ paths) := by
        intro b
        rw [dictUpdate_keys]
        constructor
        · rintro (hp | hp)
          · exact hdata p hp
          · rw [List.map_map] at hp
            obtain ⟨q, hq, rfl⟩ := List.mem_map.mp hp
            exact hmiss _ hq
        · intro hp
          by_cases hin : p ∈ data.map Prod.fst
          · exact Or.inl hin
          · refine Or.inr ?_
            rw [List.map_map]
            refine List.mem_map.mpr ⟨p, ?_, rfl⟩
            rw [List.mem_dedup, List.mem_filter]
            refine ⟨hp, ?_⟩
            simp only [Bool.not_eq_true']
            cases hany : data.any (fun kv => kv.1 == p) with
            | false => rfl
            | true =>
              obtain ⟨kv, hkv, hkvp⟩ := List.any_eq_true.mp hany
              exact absurd
                ((eq_of_beq hkvp) ▸ List.mem_map_of_mem Prod.fst hkv) hin
      by_cases hq : quick
      · rw [if_pos hq]
        exact hsplit true
      · rw [if_neg hq]
        exact hsplit false

/-- Witness for C6 (amended): a store holding `"a"` queried for `"a"`
and `"b"`. -/
theorem C6_amended_keyset_witness :
    (∀ k ∈ (Archive.get ⟨[⟨1, 0, "a", FILE_TYPE, GENERIC_BITMASK⟩], [], 2, 0⟩
        ["a", "b"] true true).1.map Prod.fst, k ∈ ["a", "b"]) ∧
    (∀ p, p ∈ (Archive.get ⟨[⟨1, 0, "a", FILE_TYPE, GENERIC_BITMASK⟩], [], 2, 0⟩
        ["a", "b"] true false).1.map Prod.fst ↔ p ∈ ["a", "b"]) :=
  C6_amended_keyset ⟨[⟨1, 0, "a", FILE_TYPE, GENERIC_BITMASK⟩], [], 2, 0⟩
    ["a", "b"] true

/-! ## `Archive.scan` failure containment (C9) -/

/-- C9: when the file-system lister reports failure for a scan target,
that subtree produces no batch and is not recursed into (the warning +
`StopIteration` simply ends the generator — `scanAux` is total, so no
error reaches the caller of `scan`), while the batches of every other
directory of the traversal are exactly what they would be on their own:
a parent's scan is its own batch followed by each sibling subtree's
batches, with the failed target contributing nothing. -/
theorem C9_scan_failed_listing {fs : Fsal} {t : String}
    (hfail : fs.listDir (if t = "" then "." else t) = none) :
    (∀ fuel depth, scanAux fs none fuel t depth = []) ∧
    (∀ fuel, Archive.scan fs none fuel t = []) ∧
    (∀ (p : String) (depth fuel : Nat) (ds1 ds2 files : List String),
      fs.listDir (if p = "" then "." else p) = some (ds1 ++ t :: ds2, files) →
      scanAux fs none (fuel + 1) p depth =
        files ::
          ((ds1.map (fun d => scanAux fs none fuel d (depth + 1))).flatten ++
           (ds2.map (fun d => scanAux fs none fuel d (depth + 1))).flatten)) := by
  have hempty : ∀ fuel depth, scanAux fs none fuel t depth = [] := by
    intro fuel depth
    cases fuel with
    | zero => rfl
    | succ n =>
      unfold scanAux
      rw [hfail]
  refine ⟨hempty, fun fuel => hempty fuel 0, ?_⟩
  intro p depth fuel ds1 ds2 files hp
  conv_lhs => unfold scanAux
  rw [hp]
  dsimp only
  rw [if_neg (by simp)]
  congr 1
  rw [List.map_append, List.map_cons, List.flatten_append, List.flatten_cons]
  rw [hempty fuel (depth + 1), List.nil_append]

/-- Witness for C9: a root with three children, the middle one failing. -/
theorem C9_scan_failed_listing_witness :
    scanAux fsalW none 5 "bad" 1 = [] ∧
    Archive.scan fsalW none 4 "bad" = [] ∧
    scanAux fsalW none 3 "" 0 =
      ["root.txt"] ::
        (((["good"].map (fun d => scanAux fsalW none 2 d 1)).flatten) ++
         ((["good2"].map (fun d => scanAux fsalW none 2 d 1)).flatten)) :=
  ⟨(@C9_scan_failed_listing fsalW "bad" (by decide)).1 5 1,
   (@C9_scan_failed_listing fsalW "bad" (by decide)).2.1 4,
   (@C9_scan_failed_listing fsalW "bad" (by decide)).2.2 "" 0 2 ["good"]
     ["good2"] ["root.txt"] (by decide)⟩

end Librarian

